import Mathlib

/-!
# dash-rates-api: the currency validator, the provider clients and the rate aggregator

A shallow embedding of `main.go` and what it guarantees.

* Go strings are lists of bytes (`GoStr`); the functions of `strings`,
  `regexp` and `sort` the handler calls are modelled on them.
* `float64` is modelled exactly (`F64`): IEEE 754 binary64 with
  round-to-nearest-even, signed zeros, infinities and NaN.
* A Go call that can return an error or panic returns an `Outcome`.
* The outside world (the clock and the answers of the upstream endpoints) is
  an explicit `World` that every provider call reads and updates; the
  functions of `gjson` and `strconv` are the fields of a `Codec`.
* The cache is the item map of `go-cache` with its expiry rule.
* The logging call of lines 275-279 marshals the table and panics on a value
  `encoding/json` cannot encode (`Logger_Printj`).

The definitions come first, in the order of the source; the facts and the
claims `C1` to `C10` follow.
-/

namespace DashRates

/-! ## Go strings -/

/-- A Go string: an immutable sequence of bytes. -/
abbrev GoStr := List UInt8

/-- The bytes (UTF-8) of a string literal of the source. -/
def GoStr.ofString (s : String) : GoStr :=
  s.data.flatMap String.utf8EncodeChar

/-- Go `strings.HasPrefix`. -/
def strings_HasPrefix (s pre : GoStr) : Bool :=
  pre.isPrefixOf s

/-- Go `strings.HasSuffix`. -/
def strings_HasSuffix (s suf : GoStr) : Bool :=
  suf.reverse.isPrefixOf s.reverse

/-- Go `strings.TrimPrefix`: drops `pre` once when `s` starts with it. -/
def strings_TrimPrefix (s pre : GoStr) : GoStr :=
  if strings_HasPrefix s pre then s.drop pre.length else s

/-- Go `strings.TrimSuffix`: drops `suf` once when `s` ends with it. -/
def strings_TrimSuffix (s suf : GoStr) : GoStr :=
  if strings_HasSuffix s suf then s.take (s.length - suf.length) else s

/-- Go `unicode.ToUpper` on an ASCII byte. -/
def upperByte (b : UInt8) : UInt8 :=
  if 97 ≤ b.toNat ∧ b.toNat ≤ 122 then b - 32 else b

/-- Go `strings.ToUpper`.  ASCII letters are mapped bytewise.  Exactly two runes
outside ASCII have an ASCII upper case: U+0131 (bytes C4 B1, giving `I`) and
U+017F (bytes C5 BF, giving `S`).  Any other byte outside ASCII is part of a
rune that Go maps to bytes outside ASCII again; the handler never tells such
bytes apart (they fail the regular expression and cannot start `LIST`), so the
model leaves them in place. -/
def strings_ToUpper : GoStr → GoStr
  | [] => []
  | [b] => [upperByte b]
  | b :: b2 :: rest =>
    if b = 0xC4 ∧ b2 = 0xB1 then 73 :: strings_ToUpper rest
    else if b = 0xC5 ∧ b2 = 0xBF then 83 :: strings_ToUpper rest
    else upperByte b :: strings_ToUpper (b2 :: rest)

/-- The scan of `strings.Index`: offset of the first occurrence of `sub` at or
after offset `i`, or `-1`. -/
def strings_Index.scan (sub : GoStr) : GoStr → Nat → Int
  | [], i => if sub = [] then (i : Int) else -1
  | b :: bs, i =>
    if sub.isPrefixOf (b :: bs) then (i : Int) else strings_Index.scan sub bs (i + 1)

/-- Go `strings.Index(s, sub)`. -/
def strings_Index (s sub : GoStr) : Int :=
  strings_Index.scan sub s 0

/-- Go `strings.Split(s, sep)` for a one-byte separator: the pieces between the
separators; the empty string splits into one empty piece. -/
def strings_Split (s : GoStr) (sep : UInt8) : List GoStr :=
  match s with
  | [] => [[]]
  | b :: bs =>
    if b = sep then [] :: strings_Split bs sep
    else
      match strings_Split bs sep with
      | [] => [[b]]
      | piece :: pieces => (b :: piece) :: pieces

/-- Go `strings.Join(parts, sep)` for a one-byte separator. -/
def strings_Join (parts : List GoStr) (sep : UInt8) : GoStr :=
  match parts with
  | [] => []
  | [p] => p
  | p :: q :: rest => p ++ sep :: strings_Join (q :: rest) sep

/-- Go's `<` on strings: lexicographic on bytes. -/
def GoStr.lt : GoStr → GoStr → Bool
  | _, [] => false
  | [], _ :: _ => true
  | a :: as, b :: bs =>
    if a.toNat < b.toNat then true
    else if b.toNat < a.toNat then false
    else GoStr.lt as bs

/-- Go's `>=` on strings. -/
def GoStr.ge (a b : GoStr) : Bool :=
  !GoStr.lt a b

/-- The byte `/`. -/
def slash : UInt8 := 47

/-- The class `[A-Z]`. -/
def isUpperAZ (b : UInt8) : Bool :=
  decide (65 ≤ b.toNat ∧ b.toNat ≤ 90)

/-- Go `regexp.MustCompile("^(/?[A-Z]{3})*$").MatchString`: the whole string is a
sequence of groups, each an optional slash followed by three capitals. -/
def matchCurrencySelection : GoStr → Bool
  | [] => true
  | [_] => false
  | [_, _] => false
  | a :: b :: c :: rest =>
    if a = slash then
      match rest with
      | [] => false
      | d :: rest2 => isUpperAZ b && isUpperAZ c && isUpperAZ d && matchCurrencySelection rest2
    else isUpperAZ a && isUpperAZ b && isUpperAZ c && matchCurrencySelection rest

/-- The loop of `sort.Search`: `i, j := 0, n; for i < j { h := (i+j)/2;
if !f(h) { i = h + 1 } else { j = h } }; return i`.  One unit of fuel is one
iteration. -/
def sort_Search.loop (f : Nat → Bool) : Nat → Nat → Nat → Nat
  | 0, i, _ => i
  | fuel + 1, i, j =>
    if i < j then
      let h := (i + j) / 2
      if !f h then sort_Search.loop f fuel (h + 1) j
      else sort_Search.loop f fuel i h
    else i

/-- Go `sort.Search(n, f)`.  The interval `[i, j)` shrinks at every iteration, so
`n` units of fuel are never used up (`sort_Search_loop_stable`). -/
def sort_Search (n : Nat) (f : Nat → Bool) : Nat :=
  sort_Search.loop f n 0 n

/-- Go `sort.SearchStrings(a, x)`: `sort.Search(len(a), func(i) { a[i] >= x })`. -/
def sort_SearchStrings (a : List GoStr) (x : GoStr) : Nat :=
  sort_Search a.length (fun i => GoStr.ge (a.getD i []) x)

/-! ## Outcomes -/

/-- A Go `error` value as the handlers produce it. -/
inductive GoError where
  | http (code : Nat) (message : String)
  | other (message : String)
  deriving DecidableEq, Repr

/-- How a Go call ends: a value, a non-nil `error`, or a run-time panic. -/
inductive Outcome (α : Type) where
  | ok (v : α)
  | err (e : GoError)
  | panic (msg : String)
  deriving DecidableEq, Repr

/-! ## The currency validator (`router.Wildcard`, lines 207-243) -/

set_option maxRecDepth 8192 in
/-- The table `supportedCurrencies`. -/
def supportedCurrencyCodes : List String := [
  "AED", "AFN", "ALL", "AMD", "ANG", "AOA", "ARS", "AUD", "AWG", "AZN", "BAM", "BBD", "BDT", "BGN",
  "BHD", "BIF", "BMD", "BND", "BOB", "BRL", "BSD", "BTN", "BWP", "BYN", "BZD", "CAD", "CDF", "CHF", "CLF", "CLP",
  "CNH", "CNY", "COP", "CRC", "CUC", "CUP", "CVE", "CZK", "DJF", "DKK", "DOP", "DZD", "EGP", "ERN", "ETB", "EUR",
  "FJD", "FKP", "GBP", "GEL", "GGP", "GHS", "GIP", "GMD", "GNF", "GTQ", "GYD", "HKD", "HNL", "HRK", "HTG", "HUF",
  "IDR", "ILS", "IMP", "INR", "IQD", "IRR", "ISK", "JEP", "JMD", "JOD", "JPY", "KES", "KGS", "KHR", "KMF", "KPW",
  "KRW", "KWD", "KYD", "KZT", "LAK", "LBP", "LKR", "LRD", "LSL", "LYD", "MAD", "MDL", "MGA", "MKD", "MMK", "MNT",
  "MOP", "MRO", "MUR", "MVR", "MWK", "MXN", "MYR", "MZN", "NAD", "NGN", "NIO", "NOK", "NPR", "NZD", "OMR", "PAB",
  "PEN", "PGK", "PHP", "PKR", "PLN", "PYG", "QAR", "RON", "RSD", "RUB", "RWF", "SAR", "SBD", "SCR", "SDG", "SEK",
  "SGD", "SHP", "SLL", "SOS", "SRD", "SSP", "STD", "SVC", "SYP", "SZL", "THB", "TJS", "TMT", "TND", "TOP", "TRY",
  "TTD", "TWD", "TZS", "UAH", "UGX", "USD", "UYU", "UZS", "VES", "VND", "VUV", "WST", "XAF", "XAG", "XAU", "XCD",
  "XDR", "XOF", "XPD", "XPF", "XPT", "YER", "ZAR", "ZMW", "ZWL"]

/-- The slice `supportedCurrencies`, as Go strings. -/
@[irreducible]
def supportedCurrencies : List GoStr :=
  supportedCurrencyCodes.map GoStr.ofString

/-- The error of line 231. -/
def malformedSelection : GoError :=
  .http 400 "Malformed currency selection in url"

/-- The error of line 238. -/
def unsupportedSelection : GoError :=
  .http 400 "Unsupported currency selection in url"

/-- The run-time panic of an index expression past the end of a slice. -/
def indexOutOfRange : String :=
  "runtime error: index out of range"

/-- Lines 235-240: every selected code is looked up by binary search and
compared with the element found; `supportedCurrencies[i]` is an unguarded
index expression. -/
def checkSupported : List GoStr → Outcome Unit
  | [] => .ok ()
  | selectedCurrency :: rest =>
    let i := sort_SearchStrings supportedCurrencies selectedCurrency
    match supportedCurrencies[i]? with
    | none => .panic indexOutOfRange
    | some found =>
      if found ≠ selectedCurrency then .err unsupportedSelection
      else checkSupported rest

/-- Lines 207-210: the normalisation of the request path. -/
def normalizePath (path : GoStr) : GoStr :=
  strings_ToUpper (strings_TrimSuffix (strings_TrimPrefix path [slash]) [slash])

/-- Lines 228-243: from the normalised path to `selectedCurrencies`. -/
def selectCurrencies (s : GoStr) : Outcome (List GoStr) :=
  if strings_Index s (GoStr.ofString "LIST") ≠ 0 then
    if matchCurrencySelection s = false then .err malformedSelection
    else
      let selectedCurrencies := strings_Split s slash
      match checkSupported selectedCurrencies with
      | .ok () => .ok selectedCurrencies
      | .err e => .err e
      | .panic m => .panic m
  else .ok supportedCurrencies

/-! ## `float64` -/

/-- An IEEE 754 binary64 value.  `fin neg m e` is `(-1)^neg * m * 2^e`; the
operations below produce the normal form `2^52 ≤ m < 2^53`, `-1074 ≤ e ≤ 971`
or the subnormal form `m < 2^52`, `e = -1074` (zero is `m = 0`). -/
inductive F64 where
  | nan
  | inf (neg : Bool)
  | fin (neg : Bool) (m : Nat) (e : Int)
  deriving DecidableEq, Repr

namespace F64

/-- The value `+0`. -/
def zero : F64 :=
  .fin false 0 (-1074)

/-- The halving loop behind `log2`; one unit of fuel is one halving. -/
def log2.loop : Nat → Nat → Nat
  | 0, _ => 0
  | fuel + 1, n => if n < 2 then 0 else log2.loop fuel (n / 2) + 1

/-- The position of the leading bit of `n` (`0` for `n ≤ 1`). -/
def log2 (n : Nat) : Nat :=
  log2.loop n n

/-- Two to the power `k` for `k ≥ 0`, and `1` otherwise. -/
def pow2 (k : Int) : Nat :=
  2 ^ k.toNat

/-- Rounds the exact value `(-1)^neg * (n / d) * 2^e` (with `d > 0`) to the
nearest binary64, ties to even, overflowing to an infinity. -/
def round (neg : Bool) (n d : Nat) (e : Int) : F64 :=
  if n = 0 then .fin neg 0 (-1074)
  else
    let e1 : Int := (log2 n : Int) - (log2 d : Int) + e - 52
    let q1 := (n * pow2 (e - e1)) / (d * pow2 (e1 - e))
    let e2 : Int := if q1 < 2 ^ 52 then e1 - 1 else e1
    let ex : Int := if e2 < -1074 then -1074 else e2
    let num := n * pow2 (e - ex)
    let den := d * pow2 (ex - e)
    let q := num / den
    let r := num % den
    let up := decide (den < 2 * r) || (decide (2 * r = den) && decide (q % 2 = 1))
    let m := if up then q + 1 else q
    let m2 := if m = 2 ^ 53 then 2 ^ 52 else m
    let ex2 : Int := if m = 2 ^ 53 then ex + 1 else ex
    if 971 < ex2 then .inf neg else .fin neg m2 ex2

/-- The conversion `float64(n)` of a non-negative integer. -/
def ofNat (n : Nat) : F64 :=
  round false n 1 0

/-- The binary64 nearest to the decimal fraction `n / d`, as a JSON number or
`strconv.ParseFloat` reads it. -/
def ofFrac (n d : Nat) : F64 :=
  round false n d 0

/-- Go's `*` on `float64`. -/
def mul : F64 → F64 → F64
  | .nan, _ => .nan
  | _, .nan => .nan
  | .inf s, .inf t => .inf (xor s t)
  | .inf s, .fin t m _ => if m = 0 then .nan else .inf (xor s t)
  | .fin s m _, .inf t => if m = 0 then .nan else .inf (xor s t)
  | .fin s m e, .fin t n f => round (xor s t) (m * n) 1 (e + f)

/-- Go's `/` on `float64`; division by zero does not panic. -/
def div : F64 → F64 → F64
  | .nan, _ => .nan
  | _, .nan => .nan
  | .inf _, .inf _ => .nan
  | .inf s, .fin t _ _ => .inf (xor s t)
  | .fin s _ _, .inf t => .fin (xor s t) 0 (-1074)
  | .fin s m e, .fin t n f =>
    if n = 0 then (if m = 0 then .nan else .inf (xor s t))
    else round (xor s t) m n (e - f)

/-- Go's `+` on `float64`. -/
def add : F64 → F64 → F64
  | .nan, _ => .nan
  | _, .nan => .nan
  | .inf s, .inf t => if s = t then .inf s else .nan
  | .inf s, .fin _ _ _ => .inf s
  | .fin _ _ _, .inf t => .inf t
  | .fin s m e, .fin t n f =>
    let ex : Int := if e ≤ f then e else f
    let a : Int := (if s then -1 else 1) * ((m * pow2 (e - ex) : Nat) : Int)
    let b : Int := (if t then -1 else 1) * ((n * pow2 (f - ex) : Nat) : Int)
    let c : Int := a + b
    if c = 0 then .fin (s && t) 0 (-1074)
    else round (decide (c < 0)) c.natAbs 1 ex

/-- Whether the value is a number: neither NaN nor an infinity.  These are the
`float64` values `encoding/json` encodes. -/
def isFinite : F64 → Bool
  | .fin _ _ _ => true
  | _ => false

/-- Go's `x == 0` on `float64`: true of both zeros, false of NaN. -/
def isZero : F64 → Bool
  | .fin _ m _ => decide (m = 0)
  | _ => false

end F64

/-! ## Go maps -/

/-- Insertion or replacement in an association list, the model of `m[k] = v`. -/
def assocSet {κ β : Type} [DecidableEq κ] : List (κ × β) → κ → β → List (κ × β)
  | [], k, v => [(k, v)]
  | (k1, v1) :: m, k, v => if k1 = k then (k, v) :: m else (k1, v1) :: assocSet m k v

/-- Lookup in an association list, the model of `v, ok := m[k]`. -/
def assocFind {κ β : Type} [DecidableEq κ] : List (κ × β) → κ → Option β
  | [], _ => none
  | (k1, v1) :: m, k => if k1 = k then some v1 else assocFind m k

/-- A `map[string]float64`; the nil map is the empty list. -/
abbrev GoMap := List (GoStr × F64)

/-- The assignment `m[k] = v`. -/
def GoMap.set (m : GoMap) (k : GoStr) (v : F64) : GoMap :=
  assocSet m k v

/-- The two-valued index expression `v, ok := m[k]`. -/
def GoMap.find? (m : GoMap) (k : GoStr) : Option F64 :=
  assocFind m k

/-- The index expression `m[k]`: the zero value when the key is absent. -/
def GoMap.get (m : GoMap) (k : GoStr) : F64 :=
  (m.find? k).getD F64.zero

/-! ## The cache (`github.com/patrickmn/go-cache`) -/

/-- What an `interface{}` stored in the cache holds. -/
inductive Value where
  | scalar (rate : F64)
  | table (rates : GoMap)
  deriving DecidableEq, Repr

/-- The type assertion `rate, _ = rateI.(float64)`: the zero value when the
dynamic type differs. -/
def Value.asScalar : Value → F64
  | .scalar r => r
  | .table _ => F64.zero

/-- The type assertion `rates, _ = ratesI.(map[string]float64)`: the nil map
when the dynamic type differs. -/
def Value.asTable : Value → GoMap
  | .table m => m
  | .scalar _ => []

/-- A cache item: the stored object and its expiry instant in nanoseconds. -/
structure Item where
  object : Value
  expiration : Nat
  deriving DecidableEq, Repr

/-- The items of the cache, by key. -/
abbrev Cache := List (String × Item)

/-- The declaration `var cacheDuration = time.Minute`, in nanoseconds; `main`
creates the cache with it as the default expiration. -/
def cacheDuration : Nat := 60000000000

/-- Go `cache.Get(k)` at the instant `now`: an item is found unless it is absent
or its expiration has passed (`now > Expiration`). -/
def Cache.Get (c : Cache) (k : String) (now : Nat) : Option Value :=
  match assocFind c k with
  | none => none
  | some item =>
    if 0 < item.expiration ∧ item.expiration < now then none else some item.object

/-- Go `cache.SetDefault(k, x)` at the instant `now`: replaces the item of `k` by
`x`, expiring `cacheDuration` later. -/
def Cache.SetDefault (c : Cache) (k : String) (x : Value) (now : Nat) : Cache :=
  assocSet c k ⟨x, now + cacheDuration⟩

/-! ## The outside world -/

/-- What `gorequest.New().Get(url).End()` returns: the body and the errors. -/
structure Response where
  body : String
  errs : List String
  deriving DecidableEq, Repr

/-- What the outside does during one provider call: the clock when the cache
is read, the answer of the upstream endpoint if it is asked, and the clock
when the answer is stored. -/
structure Upstream where
  now : Nat
  resp : Response
  later : Nat
  deriving DecidableEq, Repr

/-- The state a provider call runs in: the cache of `providers`, what the
outside does at each successive provider call (`feed`, indexed by the number
`tick` of calls made so far), the upstream requests sent and the errors handed
to `broadcastErr`. -/
structure World where
  cache : Cache
  feed : Nat → Upstream
  tick : Nat
  requests : List String
  broadcasts : List String

/-- The result of a call together with the world it leaves. -/
structure Ret (α : Type) where
  out : Outcome α
  world : World

/-- The functions of `gjson` and `strconv` the providers call. -/
structure Codec where
  /-- The bytes of `gjson.Get(body, "RAW.PRICE").String()`. -/
  rawPrice : String → GoStr
  /-- The call `strconv.ParseFloat(s, 10)`: the value and the error. -/
  parseFloat : GoStr → F64 × Option GoError
  /-- The values `value.Float()` that `gjson.Get(body, "#.rate").ForEach` visits. -/
  tradeRates : String → List F64
  /-- The value `gjson.Get(body, "last").Float()`. -/
  last : String → F64
  /-- The pairs `(key.String(), value.Get("last").Float())` that
  `gjson.Parse(body).ForEach` visits. -/
  ticker : String → List (GoStr × F64)
  /-- The value `gjson.Get(body, "dashrate").Float()`. -/
  dashrate : String → F64

/-! ## The provider clients (lines 284-395) -/

/-- What the outside does during the provider call the world is at. -/
def World.upstream (w : World) : Upstream :=
  w.feed w.tick

/-- The call `p.cache.Get(url)`. -/
def World.cacheGet (w : World) (url : String) : Option Value :=
  w.cache.Get url w.upstream.now

/-- The call `gorequest.New().Get(url).End()`: the request is sent; its answer
is `w.upstream.resp`. -/
def World.request (w : World) (url : String) : World :=
  { w with requests := w.requests ++ [url] }

/-- The call `broadcastErr(err)`. -/
def World.broadcastErr (w : World) (err : String) : World :=
  { w with broadcasts := w.broadcasts ++ [err] }

/-- The call `p.cache.SetDefault(url, x)`. -/
def World.cacheSetDefault (w : World) (url : String) (x : Value) : World :=
  { w with cache := w.cache.SetDefault url x w.upstream.later }

/-- The provider call is over: the next call meets the next entry of the
feed. -/
def World.returned (w : World) : World :=
  { w with tick := w.tick + 1 }

/-- The run-time panic of a slice expression past the end of a string. -/
def sliceOutOfRange : String :=
  "runtime error: slice bounds out of range"

/-- The URL of line 289. -/
def cryptocompareURL : String :=
  "https://min-api.cryptocompare.com/data/generateAvg?fsym=DASH&tsym=BTC&e=Binance,Kraken,Poloniex,Bitfinex"

/-- The URL of line 308. -/
def poloniexURL : String :=
  "https://poloniex.com/public?command=returnTradeHistory&currencyPair=BTC_DASH"

/-- The URL of line 334. -/
def bitcoinaverageDashURL : String :=
  "https://apiv2.bitcoinaverage.com/indices/crypto/ticker/DASHBTC"

/-- The URL of line 353. -/
def bitcoinaverageRatesURL : String :=
  "https://apiv2.bitcoinaverage.com/indices/global/ticker/short?crypto=BTC"

/-- The URL of line 379. -/
def dashCasaURL : String :=
  "http://dash.casa/api/?cur=VES"

/-- Method `providers.CryptocompareBTCDASHAverage` (lines 288-305).  The slice
expression `[1:]` of line 299 panics on the empty string; the rate is stored
whether or not `strconv.ParseFloat` returned an error. -/
def CryptocompareBTCDASHAverage (c : Codec) (w : World) : Ret F64 :=
  let url := cryptocompareURL
  match w.cacheGet url with
  | none =>
    let w := w.request url
    if 1 < w.upstream.resp.errs.length then
      ⟨.err (.http 500 "Failed to fetch BTCDASH rate from CryptoCompare"),
        (w.broadcastErr (w.upstream.resp.errs.headD "")).returned⟩
    else
      match c.rawPrice w.upstream.resp.body with
      | [] => ⟨.panic sliceOutOfRange, w.returned⟩
      | _ :: tail =>
        let rate := (c.parseFloat tail).1
        let err := (c.parseFloat tail).2
        let w := w.cacheSetDefault url (.scalar rate)
        match err with
        | none => ⟨.ok rate, w.returned⟩
        | some e => ⟨.err e, w.returned⟩
  | some rateI => ⟨.ok rateI.asScalar, w.returned⟩

/-- Method `providers.PoloniexBTCDASHAverage` (lines 307-331): the sum of the
trade rates divided by their number. -/
def PoloniexBTCDASHAverage (c : Codec) (w : World) : Ret F64 :=
  let url := poloniexURL
  match w.cacheGet url with
  | none =>
    let w := w.request url
    if 1 < w.upstream.resp.errs.length then
      ⟨.err (.http 500 "Failed to fetch BTCDASH average rate from Poloniex"),
        (w.broadcastErr (w.upstream.resp.errs.headD "")).returned⟩
    else
      let rateTotal := (c.tradeRates w.upstream.resp.body).foldl F64.add F64.zero
      let rateCount := (c.tradeRates w.upstream.resp.body).length
      let rate := F64.div rateTotal (F64.ofNat rateCount)
      let w := w.cacheSetDefault url (.scalar rate)
      ⟨.ok rate, w.returned⟩
  | some rateI => ⟨.ok rateI.asScalar, w.returned⟩

/-- Method `providers.BitcoinaverageCurrentBTCDASHRate` (lines 333-350). -/
def BitcoinaverageCurrentBTCDASHRate (c : Codec) (w : World) : Ret F64 :=
  let url := bitcoinaverageDashURL
  match w.cacheGet url with
  | none =>
    let w := w.request url
    if 1 < w.upstream.resp.errs.length then
      ⟨.err (.http 500 "Failed to fetch BTCDASH rate from BitcoinAverage"),
        (w.broadcastErr (w.upstream.resp.errs.headD "")).returned⟩
    else
      let rate := c.last w.upstream.resp.body
      let w := w.cacheSetDefault url (.scalar rate)
      ⟨.ok rate, w.returned⟩
  | some rateI => ⟨.ok rateI.asScalar, w.returned⟩

/-- Lines 365-368: `rates[key.String()[3:]] = value.Get("last").Float()` for
every entry; the slice expression panics on a key shorter than three bytes
(the result `none`). -/
def collectRates : List (GoStr × F64) → GoMap → Option GoMap
  | [], rates => some rates
  | (key, last) :: rest, rates =>
    if key.length < 3 then none
    else collectRates rest (rates.set (key.drop 3) last)

/-- Method `providers.BitcoinaverageRates` (lines 352-376). -/
def BitcoinaverageRates (c : Codec) (w : World) : Ret GoMap :=
  let url := bitcoinaverageRatesURL
  match w.cacheGet url with
  | none =>
    let w := w.request url
    if 1 < w.upstream.resp.errs.length then
      ⟨.err (.http 500 "Failed to fetch rates from BitcoinAverage"),
        (w.broadcastErr (w.upstream.resp.errs.headD "")).returned⟩
    else
      match collectRates (c.ticker w.upstream.resp.body) [] with
      | none => ⟨.panic sliceOutOfRange, w.returned⟩
      | some rates =>
        let w := w.cacheSetDefault url (.table rates)
        ⟨.ok rates, w.returned⟩
  | some ratesI => ⟨.ok ratesI.asTable, w.returned⟩

/-- Method `providers.DashCasaDASHVESRate` (lines 378-395). -/
def DashCasaDASHVESRate (c : Codec) (w : World) : Ret F64 :=
  let url := dashCasaURL
  match w.cacheGet url with
  | none =>
    let w := w.request url
    if 1 < w.upstream.resp.errs.length then
      ⟨.err (.http 500 "Failed to fetch DASHVES rate from Dash Casa"),
        (w.broadcastErr (w.upstream.resp.errs.headD "")).returned⟩
    else
      let rate := c.dashrate w.upstream.resp.body
      let w := w.cacheSetDefault url (.scalar rate)
      ⟨.ok rate, w.returned⟩
  | some rateI => ⟨.ok rateI.asScalar, w.returned⟩

/-! ## The rate aggregator (`router.Wildcard`, lines 245-282) -/

/-- The code `"VES"`. -/
def VES : GoStr :=
  GoStr.ofString "VES"

/-- Lines 250-260: the BTC/DASH rate in use.  The primary provider is asked;
its error is returned as it is; when it answers `0` the secondary provider is
asked instead. -/
def btcDashRateInUse (c : Codec) (w : World) : Ret F64 :=
  let p := CryptocompareBTCDASHAverage c w
  match p.out with
  | .err e => ⟨.err e, p.world⟩
  | .panic m => ⟨.panic m, p.world⟩
  | .ok btcDashRate =>
    if btcDashRate.isZero then BitcoinaverageCurrentBTCDASHRate c p.world
    else ⟨.ok btcDashRate, p.world⟩

/-- Lines 264-273: the loop over `selectedCurrencies`, filling `rates`. -/
def ratesLoop (c : Codec) (btcRates : GoMap) (btcDashRate : F64) :
    List GoStr → GoMap → World → Ret GoMap
  | [], rates, w => ⟨.ok rates, w⟩
  | currency :: rest, rates, w =>
    if currency = VES then
      let d := DashCasaDASHVESRate c w
      match d.out with
      | .err e => ⟨.err e, d.world⟩
      | .panic m => ⟨.panic m, d.world⟩
      | .ok rate => ratesLoop c btcRates btcDashRate rest (rates.set VES rate) d.world
    else
      ratesLoop c btcRates btcDashRate rest
        (rates.set currency (F64.mul (btcRates.get currency) btcDashRate)) w

/-- Whether every value of the map is a number. -/
def GoMap.allFinite (m : GoMap) : Bool :=
  m.all (fun entry => entry.2.isFinite)

/-- The panic of the logger: the error of `json.Marshal` on a value it cannot
encode. -/
def jsonUnsupportedValue : String :=
  "json: unsupported value"

/-- Lines 275-279, the call `c.Logger().Printj(...)` with `rates` among its
fields.  The logger of `echo` marshals its argument with `encoding/json` and
panics when that fails, and `encoding/json` rejects a `float64` that is NaN or
infinite.  The result is the panic, or `none` when the line is written. -/
def Logger_Printj (rates : GoMap) : Option String :=
  if rates.allFinite then none else some jsonUnsupportedValue

/-- Lines 275-281, what follows the loop: an error or panic of the loop has
already ended the handler; otherwise the table is logged, and when the logger
does not panic the handler ends with `c.JSON(http.StatusOK, rates)`. -/
def logAndRespond (l : Ret GoMap) : Ret GoMap :=
  match l.out with
  | .err e => ⟨.err e, l.world⟩
  | .panic m => ⟨.panic m, l.world⟩
  | .ok rates =>
    match Logger_Printj rates with
    | some m => ⟨.panic m, l.world⟩
    | none => ⟨.ok rates, l.world⟩

/-- Method `router.Wildcard` (lines 206-282).  The outcome `ok rates` is the call
`c.JSON(http.StatusOK, rates)`, reached with a table of numbers only: the
table the handler sends as the body of a 200 response. -/
def Wildcard (c : Codec) (w : World) (path : GoStr) : Ret GoMap :=
  match selectCurrencies (normalizePath path) with
  | .err e => ⟨.err e, w⟩
  | .panic m => ⟨.panic m, w⟩
  | .ok selectedCurrencies =>
    let a := BitcoinaverageRates c w
    match a.out with
    | .err e => ⟨.err e, a.world⟩
    | .panic m => ⟨.panic m, a.world⟩
    | .ok btcRates =>
      let b := btcDashRateInUse c a.world
      match b.out with
      | .err e => ⟨.err e, b.world⟩
      | .panic m => ⟨.panic m, b.world⟩
      | .ok btcDashRate =>
        logAndRespond (ratesLoop c btcRates btcDashRate selectedCurrencies [] b.world)

/-! ## Auxiliary predicates -/

/-- The language of the regular expression `^(/?[A-Z]{3})*$`, read off the
expression: a sequence of groups, each an optional slash and three capitals. -/
inductive CurrencySelection : GoStr → Prop where
  | done : CurrencySelection []
  | group (slashed : Bool) (a b c : UInt8) (rest : GoStr) :
      isUpperAZ a = true → isUpperAZ b = true → isUpperAZ c = true →
      CurrencySelection rest →
      CurrencySelection ((if slashed then [slash] else []) ++ a :: b :: c :: rest)

/-- Three capitals. -/
def isCode (code : GoStr) : Bool :=
  match code with
  | [a, b, c] => isUpperAZ a && isUpperAZ b && isUpperAZ c
  | _ => false

/-- Each provider key holds the kind of value its provider stores. -/
def kindOK (k : String) (x : Value) : Bool :=
  if k = bitcoinaverageRatesURL then
    (match x with
     | .table _ => true
     | .scalar _ => false)
  else if k = cryptocompareURL ∨ k = poloniexURL ∨ k = bitcoinaverageDashURL ∨ k = dashCasaURL then
    (match x with
     | .scalar _ => true
     | .table _ => false)
  else true

/-- The typing invariant of the cache: every item has the kind of its key. -/
def Cache.WellTyped (c : Cache) : Bool :=
  c.all (fun entry => kindOK entry.1 entry.2.object)

/-- What the statements between the error check and `SetDefault` compute from
a body: the value to store together with the `err` to return, or a panic. -/
inductive Decoded (α : Type) where
  | value (v : α) (err : Option GoError)
  | panic (msg : String)

/-- The body the five provider methods share, with its parts as parameters:
`x, found := p.cache.Get(url); if !found { _, body, errs := gorequest.New().Get(url).End();
if len(errs) > 1 { broadcastErr(errs[0]); err = echo.NewHTTPError(500, failure); return };
v, err = decode(body); p.cache.SetDefault(url, v) } else { v, _ = x.(T) }; return`.
Each method is an instance of it (`providers_eq_cacheOrFetch`). -/
def cacheOrFetch {α : Type} (url failure : String) (decode : String → Decoded α)
    (box : α → Value) (unbox : Value → α) (w : World) : Ret α :=
  match w.cacheGet url with
  | none =>
    if 1 < w.upstream.resp.errs.length then
      ⟨.err (.http 500 failure),
        ((w.request url).broadcastErr (w.upstream.resp.errs.headD "")).returned⟩
    else
      match decode w.upstream.resp.body with
      | .panic m => ⟨.panic m, (w.request url).returned⟩
      | .value v none => ⟨.ok v, ((w.request url).cacheSetDefault url (box v)).returned⟩
      | .value v (some e) => ⟨.err e, ((w.request url).cacheSetDefault url (box v)).returned⟩
  | some x => ⟨.ok (unbox x), w.returned⟩

/-- Line 299 as a decoder. -/
def decodeCryptocompare (c : Codec) (body : String) : Decoded F64 :=
  match c.rawPrice body with
  | [] => .panic sliceOutOfRange
  | _ :: tail => .value (c.parseFloat tail).1 (c.parseFloat tail).2

/-- Lines 318-325 as a decoder. -/
def decodePoloniex (c : Codec) (body : String) : Decoded F64 :=
  .value (F64.div ((c.tradeRates body).foldl F64.add F64.zero)
    (F64.ofNat (c.tradeRates body).length)) none

/-- Lines 365-368 as a decoder. -/
def decodeRates (c : Codec) (body : String) : Decoded GoMap :=
  match collectRates (c.ticker body) [] with
  | none => .panic sliceOutOfRange
  | some rates => .value rates none

/-- A call served from the cache: whenever the key has a live entry, the call
returns that entry's value without error, sends no request and leaves the
cache as it was. -/
def ServesCached {α : Type} (call : World → Ret α) (url : String) (box : α → Value)
    (w : World) : Prop :=
  ∀ x, w.cacheGet url = some x →
    ∃ v, box v = x ∧ (call w).out = .ok v ∧ (call w).world.cache = w.cache ∧
      (call w).world.requests = w.requests

/-- Two consecutive calls: when the first call misses and its fetch succeeds
with `v`, and the second call starts within `cacheDuration` of the store, the
second call returns `v` too, and the two calls together sent one request. -/
def SecondCallServed {α : Type} (call : World → Ret α) (url : String) (w : World) : Prop :=
  w.cacheGet url = none →
  ∀ v, (call w).out = .ok v →
    (call w).world.upstream.now ≤ w.upstream.later + cacheDuration →
      (call (call w).world).out = .ok v ∧
      (call (call w).world).world.requests = w.requests ++ [url] ∧
      (call (call w).world).world.cache = (call w).world.cache

/-- The world after `k` successive calls of `DashCasaDASHVESRate`. -/
def afterVesCalls (c : Codec) : Nat → World → World
  | 0, w => w
  | k + 1, w => afterVesCalls c k (DashCasaDASHVESRate c w).world

/-! ## Scenarios -/

/-- A codec with fixed answers: the primary BTC/DASH rate, the secondary one,
the ticker entries, the VES rate and the trade rates. -/
def mockCodec (primary secondary : F64) (entries : List (GoStr × F64)) (ves : F64)
    (trades : List F64) : Codec where
  rawPrice := fun _ => GoStr.ofString "$1"
  parseFloat := fun _ => (primary, none)
  tradeRates := fun _ => trades
  last := fun _ => secondary
  ticker := fun _ => entries
  dashrate := fun _ => ves

/-- The ticker of the scenarios: BTC at 50000 USD and 46000 EUR. -/
def mockTicker : List (GoStr × F64) :=
  [(GoStr.ofString "BTCUSD", F64.ofNat 50000), (GoStr.ofString "BTCEUR", F64.ofNat 46000)]

/-- An upstream that answers at the instant `t` with `n` transport errors. -/
def answerWith (t : Nat) (n : Nat) : Upstream :=
  ⟨t, ⟨"", List.replicate n "connection refused"⟩, t⟩

/-- A world with an empty cache in which every upstream answers without
error. -/
def calmWorld : World :=
  ⟨[], fun _ => answerWith 0 0, 0, [], []⟩

/-- A world with an empty cache in which provider call number `k` meets `n`
transport errors and every other call none. -/
def troubledWorld (k n : Nat) : World :=
  ⟨[], fun i => if i = k then answerWith 0 n else answerWith 0 0, 0, [], []⟩

/-- A world whose cache holds live entries for the rate table and for the
secondary BTC/DASH rate. -/
def warmWorld : World :=
  ⟨[(bitcoinaverageRatesURL, ⟨.table [(GoStr.ofString "USD", F64.ofNat 50000)], cacheDuration⟩),
    (bitcoinaverageDashURL, ⟨.scalar (F64.ofFrac 2 100), cacheDuration⟩)],
   fun _ => answerWith 1000 0, 0, [], []⟩

/-- The world in which the loop of lines 264-273 starts: after the calls of
lines 245-260. -/
def loopWorld (c : Codec) (w : World) : World :=
  (btcDashRateInUse c (BitcoinaverageRates c w).world).world

/-- The outcome with a function applied to its value. -/
def Outcome.map {α β : Type} (f : α → β) : Outcome α → Outcome β
  | .ok v => .ok (f v)
  | .err e => .err e
  | .panic m => .panic m

/-! ## Facts about the Go string functions -/

theorem strings_Index_scan_ge (sub : GoStr) (s : GoStr) (i : Nat) :
    strings_Index.scan sub s i = -1 ∨ (i : Int) ≤ strings_Index.scan sub s i := by
  induction s generalizing i with
  | nil =>
    unfold strings_Index.scan
    split
    · right; exact le_refl _
    · left; rfl
  | cons b bs ih =>
    unfold strings_Index.scan
    split
    · right; exact le_refl _
    · rcases ih (i + 1) with h | h
      · left; exact h
      · right; omega

/-- Go `strings.Index(s, sub) == 0` says that `s` starts with `sub`. -/
theorem strings_Index_eq_zero_iff (s sub : GoStr) (hsub : sub ≠ []) :
    strings_Index s sub = 0 ↔ strings_HasPrefix s sub = true := by
  unfold strings_Index strings_HasPrefix
  cases s with
  | nil =>
    cases sub with
    | nil => exact absurd rfl hsub
    | cons a as => simp [strings_Index.scan]
  | cons b bs =>
    unfold strings_Index.scan
    by_cases h : sub.isPrefixOf (b :: bs) = true
    · simp [h]
    · have hb : sub.isPrefixOf (b :: bs) = false := Bool.eq_false_iff.mpr h
      rw [if_neg h, hb]
      rcases strings_Index_scan_ge sub bs (0 + 1) with h1 | h1
      · simp [h1]
      · constructor
        · intro h0
          rw [h0] at h1
          omega
        · intro h0
          cases h0

/-- The loop of `sort.Search` never uses up its fuel: once the fuel covers the
width of the interval, more fuel changes nothing. -/
theorem sort_Search_loop_stable (f : Nat → Bool) (fuel : Nat) :
    ∀ i j : Nat, j - i ≤ fuel →
      sort_Search.loop f (fuel + 1) i j = sort_Search.loop f fuel i j := by
  induction fuel with
  | zero =>
    intro i j h
    have hij : ¬ i < j := by omega
    simp [sort_Search.loop, hij]
  | succ n ih =>
    intro i j h
    rw [sort_Search.loop]
    conv => rhs; rw [sort_Search.loop]
    by_cases hij : i < j
    · simp only [hij, if_true]
      by_cases hf : (!f ((i + j) / 2)) = true
      · simp only [hf, if_true]
        exact ih _ _ (by omega)
      · simp only [hf]
        exact ih _ _ (by omega)
    · simp [hij]

/-! ## Facts about the validator -/

theorem supportedCurrencies_all_isCode : supportedCurrencies.all isCode = true := by
  decide!

theorem supportedCurrencies_all_found :
    supportedCurrencies.all (fun code =>
      decide (supportedCurrencies[sort_SearchStrings supportedCurrencies code]? = some code))
      = true := by
  decide!

theorem isCode_of_supported {code : GoStr} (h : code ∈ supportedCurrencies) :
    isCode code = true :=
  List.all_eq_true.mp supportedCurrencies_all_isCode code h

theorem found_of_supported {code : GoStr} (h : code ∈ supportedCurrencies) :
    supportedCurrencies[sort_SearchStrings supportedCurrencies code]? = some code := by
  have := List.all_eq_true.mp supportedCurrencies_all_found code h
  simpa using this

theorem checkSupported_ok (codes : List GoStr) (h : ∀ code ∈ codes, code ∈ supportedCurrencies) :
    checkSupported codes = .ok () := by
  induction codes with
  | nil => rfl
  | cons code rest ih =>
    unfold checkSupported
    simp only [found_of_supported (h code (List.mem_cons_self _ _))]
    simp only [ne_eq, not_true_eq_false, if_false]
    exact ih (fun c hc => h c (List.mem_cons_of_mem _ hc))

theorem checkSupported_ok_mem (codes : List GoStr) (h : checkSupported codes = .ok ()) :
    ∀ code ∈ codes, code ∈ supportedCurrencies := by
  induction codes with
  | nil => intro code hc; cases hc
  | cons code rest ih =>
    unfold checkSupported at h
    simp only at h
    split at h
    · cases h
    · rename_i found hfound
      split at h
      · cases h
      · rename_i hne
        have heq : found = code := by simpa using hne
        intro c hc
        rcases List.mem_cons.mp hc with rfl | hc
        · rw [← heq]
          exact List.getElem?_mem hfound
        · exact ih h c hc

theorem checkSupported_unsupported (codes : List GoStr)
    (h : ∃ code ∈ codes, code ∉ supportedCurrencies) :
    checkSupported codes = .err unsupportedSelection ∨
      checkSupported codes = .panic indexOutOfRange := by
  induction codes with
  | nil => obtain ⟨c, hc, _⟩ := h; cases hc
  | cons code rest ih =>
    unfold checkSupported
    simp only
    split
    · right; rfl
    · rename_i found hfound
      split
      · left; rfl
      · rename_i hne
        have heq : found = code := by simpa using hne
        have hmem : code ∈ supportedCurrencies := by
          rw [← heq]; exact List.getElem?_mem hfound
        obtain ⟨c, hc, hcn⟩ := h
        rcases List.mem_cons.mp hc with rfl | hc
        · exact absurd hmem hcn
        · exact ih ⟨c, hc, hcn⟩

theorem isUpperAZ_ne_slash {b : UInt8} (h : isUpperAZ b = true) : b ≠ slash := by
  intro hb
  subst hb
  revert h
  decide

theorem isCode_cases {code : GoStr} (h : isCode code = true) :
    ∃ a b c, code = [a, b, c] ∧ isUpperAZ a = true ∧ isUpperAZ b = true ∧
      isUpperAZ c = true := by
  rcases code with _ | ⟨a, _ | ⟨b, _ | ⟨c, _ | ⟨d, r⟩⟩⟩⟩ <;> simp [isCode] at h
  exact ⟨a, b, c, rfl, h.1.1, h.1.2, h.2⟩

theorem isCode_slash_not_mem {code : GoStr} (h : isCode code = true) : slash ∉ code := by
  obtain ⟨a, b, c, rfl, ha, hb, hc⟩ := isCode_cases h
  intro hm
  simp only [List.mem_cons, List.mem_singleton, List.not_mem_nil, or_false] at hm
  rcases hm with h1 | h1 | h1
  · exact isUpperAZ_ne_slash ha h1.symm
  · exact isUpperAZ_ne_slash hb h1.symm
  · exact isUpperAZ_ne_slash hc h1.symm

theorem matchCurrencySelection_sound :
    ∀ (n : Nat) (s : GoStr), s.length ≤ n → matchCurrencySelection s = true →
      CurrencySelection s := by
  intro n
  induction n with
  | zero =>
    intro s hn _
    have : s = [] := List.eq_nil_of_length_eq_zero (Nat.le_zero.mp hn)
    subst this
    exact .done
  | succ n ih =>
    intro s hn h
    rcases s with _ | ⟨a, _ | ⟨b, _ | ⟨c, rest⟩⟩⟩
    · exact .done
    · simp [matchCurrencySelection] at h
    · simp [matchCurrencySelection] at h
    · by_cases ha : a = slash
      · subst ha
        rcases rest with _ | ⟨d, rest2⟩
        · simp [matchCurrencySelection] at h
        · simp only [matchCurrencySelection, if_true, Bool.and_eq_true] at h
          obtain ⟨⟨⟨hb, hc⟩, hd⟩, hr⟩ := h
          have hlen : rest2.length ≤ n := by
            simp only [List.length_cons] at hn
            omega
          exact CurrencySelection.group true b c d rest2 hb hc hd (ih rest2 hlen hr)
      · have hlen : rest.length ≤ n := by
          simp only [List.length_cons] at hn
          omega
        rcases rest with _ | ⟨d, rest2⟩
        · simp only [matchCurrencySelection, if_neg ha, Bool.and_eq_true] at h
          exact CurrencySelection.group false a b c [] h.1.1.1 h.1.1.2 h.1.2 .done
        · simp only [matchCurrencySelection, if_neg ha, Bool.and_eq_true] at h
          exact CurrencySelection.group false a b c (d :: rest2) h.1.1.1 h.1.1.2 h.1.2
            (ih (d :: rest2) hlen h.2)

/-- The recogniser accepts exactly the language of the regular expression. -/
theorem matchCurrencySelection_iff (s : GoStr) :
    matchCurrencySelection s = true ↔ CurrencySelection s := by
  constructor
  · exact matchCurrencySelection_sound s.length s (le_refl _)
  · intro h
    induction h with
    | done => rfl
    | group slashed a b c rest ha hb hc _ ih =>
      cases slashed with
      | true =>
        simp [matchCurrencySelection, ha, hb, hc, ih]
      | false =>
        have hna : a ≠ slash := isUpperAZ_ne_slash ha
        simp only [List.nil_append, Bool.false_eq_true, if_false]
        rcases rest with _ | ⟨d, rest2⟩
        · simp [matchCurrencySelection, hna, ha, hb, hc]
        · simp [matchCurrencySelection, hna, ha, hb, hc, ih]

theorem listSentinel_bytes : GoStr.ofString "LIST" = [76, 73, 83, 84] := by
  decide!

/-- The regular expression accepts every join of codes, also after a slash. -/
theorem matchCurrencySelection_join (codes : List GoStr)
    (h : ∀ code ∈ codes, isCode code = true) :
    matchCurrencySelection (strings_Join codes slash) = true ∧
      (codes ≠ [] → matchCurrencySelection (slash :: strings_Join codes slash) = true) := by
  induction codes with
  | nil => exact ⟨rfl, fun h => absurd rfl h⟩
  | cons p rest ih =>
    obtain ⟨a, b, c, rfl, ha, hb, hc⟩ := isCode_cases (h p (List.mem_cons_self _ _))
    have ih2 := ih (fun code hc => h code (List.mem_cons_of_mem _ hc))
    have hna : a ≠ slash := isUpperAZ_ne_slash ha
    cases rest with
    | nil =>
      refine ⟨?_, fun _ => ?_⟩
      · simp [strings_Join, matchCurrencySelection, hna, ha, hb, hc]
      · simp [strings_Join, matchCurrencySelection, ha, hb, hc]
    | cons q r =>
      have hq := ih2.2 (List.cons_ne_nil _ _)
      refine ⟨?_, fun _ => ?_⟩
      · simp [strings_Join, matchCurrencySelection, hna, ha, hb, hc, hq]
      · simp [strings_Join, matchCurrencySelection, ha, hb, hc, hq]

theorem strings_Split_noslash (p : GoStr) (hp : slash ∉ p) : strings_Split p slash = [p] := by
  induction p with
  | nil => rfl
  | cons b bs ih =>
    have hb : b ≠ slash := fun h => hp (h ▸ List.mem_cons_self _ _)
    have hbs : slash ∉ bs := fun h => hp (List.mem_cons_of_mem _ h)
    rw [strings_Split, if_neg hb, ih hbs]

theorem strings_Split_append (p : GoStr) (hp : slash ∉ p) (t : GoStr) :
    strings_Split (p ++ slash :: t) slash = p :: strings_Split t slash := by
  induction p with
  | nil => simp [strings_Split]
  | cons b bs ih =>
    have hb : b ≠ slash := fun h => hp (h ▸ List.mem_cons_self _ _)
    have hbs : slash ∉ bs := fun h => hp (List.mem_cons_of_mem _ h)
    rw [List.cons_append, strings_Split, if_neg hb, ih hbs]

/-- Splitting a join of slash-free pieces gives the pieces back. -/
theorem strings_Split_join (codes : List GoStr) (hne : codes ≠ [])
    (h : ∀ code ∈ codes, slash ∉ code) :
    strings_Split (strings_Join codes slash) slash = codes := by
  induction codes with
  | nil => exact absurd rfl hne
  | cons p rest ih =>
    cases rest with
    | nil =>
      simp only [strings_Join]
      exact strings_Split_noslash p (h p (List.mem_cons_self _ _))
    | cons q r =>
      simp only [strings_Join]
      rw [strings_Split_append p (h p (List.mem_cons_self _ _))]
      rw [ih (List.cons_ne_nil _ _) (fun code hc => h code (List.mem_cons_of_mem _ hc))]

theorem strings_Join_not_sentinel (codes : List GoStr)
    (h : ∀ code ∈ codes, isCode code = true) :
    strings_HasPrefix (strings_Join codes slash) (GoStr.ofString "LIST") = false := by
  rw [listSentinel_bytes]
  cases codes with
  | nil => rfl
  | cons p rest =>
    obtain ⟨a, b, c, rfl, -, -, -⟩ := isCode_cases (h p (List.mem_cons_self _ _))
    cases rest with
    | nil => simp [strings_Join, strings_HasPrefix, List.isPrefixOf]
    | cons q r =>
      have : ((84 : UInt8) == slash) = false := by decide
      simp [strings_Join, strings_HasPrefix, List.isPrefixOf, this]

theorem strings_Join_head (codes : List GoStr) (hne : codes ≠ [])
    (h : ∀ code ∈ codes, isCode code = true) :
    ∃ a t, strings_Join codes slash = a :: t ∧ isUpperAZ a = true := by
  cases codes with
  | nil => exact absurd rfl hne
  | cons p rest =>
    obtain ⟨a, b, c, rfl, ha, -, -⟩ := isCode_cases (h p (List.mem_cons_self _ _))
    cases rest with
    | nil => exact ⟨a, [b, c], rfl, ha⟩
    | cons q r => exact ⟨a, _, rfl, ha⟩

theorem strings_Join_last (codes : List GoStr) (hne : codes ≠ [])
    (h : ∀ code ∈ codes, isCode code = true) :
    ∃ t z, strings_Join codes slash = t ++ [z] ∧ isUpperAZ z = true := by
  induction codes with
  | nil => exact absurd rfl hne
  | cons p rest ih =>
    obtain ⟨a, b, c, rfl, -, -, hc⟩ := isCode_cases (h p (List.mem_cons_self _ _))
    cases rest with
    | nil => exact ⟨[a, b], c, rfl, hc⟩
    | cons q r =>
      obtain ⟨t, z, ht, hz⟩ :=
        ih (List.cons_ne_nil _ _) (fun code hc => h code (List.mem_cons_of_mem _ hc))
      refine ⟨[a, b, c] ++ slash :: t, z, ?_, hz⟩
      simp only [strings_Join]
      rw [ht]
      simp

theorem upperByte_slash : upperByte slash = slash := by
  decide

theorem strings_ToUpper_pair (b b2 : UInt8) (rest : GoStr) :
    strings_ToUpper (b :: b2 :: rest) =
      if b = 0xC4 ∧ b2 = 0xB1 then 73 :: strings_ToUpper rest
      else if b = 0xC5 ∧ b2 = 0xBF then 83 :: strings_ToUpper rest
      else upperByte b :: strings_ToUpper (b2 :: rest) := by
  rw [strings_ToUpper]

theorem strings_ToUpper_slash_cons (ys : GoStr) :
    strings_ToUpper (slash :: ys) = slash :: strings_ToUpper ys := by
  cases ys with
  | nil => simp [strings_ToUpper, upperByte_slash]
  | cons y ys =>
    have h1 : ¬ (slash = 0xC4 ∧ y = 0xB1) := by
      rintro ⟨h, -⟩; revert h; decide
    have h2 : ¬ (slash = 0xC5 ∧ y = 0xBF) := by
      rintro ⟨h, -⟩; revert h; decide
    rw [strings_ToUpper_pair slash y ys, if_neg h1, if_neg h2, upperByte_slash]

/-- Upper-casing goes through a slash: no rune spans it. -/
theorem strings_ToUpper_append_slash (xs ys : GoStr) :
    strings_ToUpper (xs ++ slash :: ys) = strings_ToUpper xs ++ slash :: strings_ToUpper ys := by
  induction xs using strings_ToUpper.induct with
  | case1 =>
    simp only [List.nil_append]
    rw [strings_ToUpper_slash_cons]
    simp [strings_ToUpper]
  | case2 b =>
    have h1 : ¬ (b = 0xC4 ∧ slash = 0xB1) := by
      rintro ⟨-, h⟩; revert h; decide
    have h2 : ¬ (b = 0xC5 ∧ slash = 0xBF) := by
      rintro ⟨-, h⟩; revert h; decide
    simp only [List.singleton_append]
    rw [strings_ToUpper_pair b slash ys, if_neg h1, if_neg h2, strings_ToUpper_slash_cons]
    simp [strings_ToUpper]
  | case3 b b2 rest hc ih =>
    simp only [List.cons_append]
    rw [strings_ToUpper_pair, if_pos hc, ih, strings_ToUpper_pair b b2 rest, if_pos hc]
    simp
  | case4 b b2 rest hc hc2 ih =>
    simp only [List.cons_append]
    rw [strings_ToUpper_pair, if_neg hc, if_pos hc2, ih, strings_ToUpper_pair b b2 rest,
      if_neg hc, if_pos hc2]
    simp
  | case5 b b2 rest hc hc2 ih =>
    simp only [List.cons_append] at ih ⊢
    rw [strings_ToUpper_pair, if_neg hc, if_neg hc2, ih, strings_ToUpper_pair b b2 rest,
      if_neg hc, if_neg hc2]
    simp

theorem strings_TrimPrefix_lead (lead : GoStr) (b : UInt8) (rest : GoStr)
    (hlead : lead = [] ∨ lead = [slash]) (hb : b ≠ slash) :
    strings_TrimPrefix (lead ++ b :: rest) [slash] = b :: rest := by
  have hb2 : (slash == b) = false := beq_eq_false_iff_ne.mpr (Ne.symm hb)
  rcases hlead with rfl | rfl
  · simp [strings_TrimPrefix, strings_HasPrefix, List.isPrefixOf, hb2]
  · simp [strings_TrimPrefix, strings_HasPrefix, List.isPrefixOf]

theorem strings_TrimSuffix_trail (xs : GoStr) (z : UInt8) (trail : GoStr)
    (htrail : trail = [] ∨ trail = [slash]) (hz : z ≠ slash) :
    strings_TrimSuffix (xs ++ [z] ++ trail) [slash] = xs ++ [z] := by
  have hz2 : (slash == z) = false := beq_eq_false_iff_ne.mpr (Ne.symm hz)
  rcases htrail with rfl | rfl
  · simp [strings_TrimSuffix, strings_HasSuffix, List.isPrefixOf, hz2]
  · have hs : strings_HasSuffix (xs ++ [z] ++ [slash]) [slash] = true := by
      simp [strings_HasSuffix, List.isPrefixOf]
    have hl : (xs ++ [z] ++ [slash]).length - [slash].length = (xs ++ [z]).length := by simp
    unfold strings_TrimSuffix
    rw [if_pos hs, hl, List.take_left]

/-- A path that spells a join of codes in any letter case, with at most one
slash before and one after, normalises to that join. -/
theorem normalizePath_join (codes : List GoStr) (lead body trail : GoStr)
    (hne : codes ≠ []) (hall : ∀ code ∈ codes, isCode code = true)
    (hlead : lead = [] ∨ lead = [slash]) (htrail : trail = [] ∨ trail = [slash])
    (hbody : strings_ToUpper body = strings_Join codes slash) :
    normalizePath (lead ++ body ++ trail) = strings_Join codes slash := by
  obtain ⟨a, t, hJ, ha⟩ := strings_Join_head codes hne hall
  obtain ⟨t2, z, hJ2, hz⟩ := strings_Join_last codes hne hall
  have hbne : body ≠ [] := by
    rintro rfl
    rw [hJ] at hbody
    simp [strings_ToUpper] at hbody
  obtain ⟨b, bs, rfl⟩ := List.exists_cons_of_ne_nil hbne
  have hb : b ≠ slash := by
    rintro rfl
    rw [strings_ToUpper_slash_cons, hJ] at hbody
    exact isUpperAZ_ne_slash ha (List.cons.inj hbody).1.symm
  rcases List.eq_nil_or_concat (b :: bs) with h | ⟨xs, y, hxy⟩
  · exact absurd h hbne
  have hxy2 : b :: bs = xs ++ [y] := by simpa using hxy
  have hy : y ≠ slash := by
    rintro rfl
    have h1 : strings_ToUpper (xs ++ slash :: []) = strings_ToUpper xs ++ slash :: strings_ToUpper [] :=
      strings_ToUpper_append_slash xs []
    rw [hxy2, h1, hJ2] at hbody
    have h2 : strings_ToUpper xs ++ [slash] = t2 ++ [z] := by simpa [strings_ToUpper] using hbody
    have h3 := List.append_inj_right' h2 rfl
    exact isUpperAZ_ne_slash hz (List.cons.inj h3).1.symm
  unfold normalizePath
  have e1 : lead ++ (b :: bs) ++ trail = lead ++ b :: (bs ++ trail) := by simp
  rw [e1, strings_TrimPrefix_lead lead b _ hlead hb]
  have e2 : b :: (bs ++ trail) = xs ++ [y] ++ trail := by
    rw [← hxy2]; simp
  rw [e2, strings_TrimSuffix_trail xs y trail htrail hy, ← hxy2, hbody]

/-! ## Facts about maps and the cache -/

theorem assocFind_assocSet_same {κ β : Type} [DecidableEq κ] (m : List (κ × β)) (k : κ) (v : β) :
    assocFind (assocSet m k v) k = some v := by
  induction m with
  | nil => simp [assocSet, assocFind]
  | cons e m ih =>
    obtain ⟨k1, v1⟩ := e
    by_cases h : k1 = k
    · simp [assocSet, assocFind, h]
    · simp [assocSet, assocFind, h, ih]

theorem assocFind_assocSet_other {κ β : Type} [DecidableEq κ] (m : List (κ × β)) (k k2 : κ)
    (v : β) (hk : k2 ≠ k) : assocFind (assocSet m k v) k2 = assocFind m k2 := by
  induction m with
  | nil => simp [assocSet, assocFind, Ne.symm hk]
  | cons e m ih =>
    obtain ⟨k1, v1⟩ := e
    by_cases h : k1 = k
    · subst h
      simp [assocSet, assocFind, Ne.symm hk]
    · by_cases h2 : k1 = k2
      · subst h2
        simp [assocSet, assocFind, h]
      · simp [assocSet, assocFind, h, h2, ih]

theorem GoMap.find?_set_same (m : GoMap) (k : GoStr) (v : F64) :
    (m.set k v).find? k = some v :=
  assocFind_assocSet_same m k v

theorem GoMap.find?_set_other (m : GoMap) (k k2 : GoStr) (v : F64) (hk : k2 ≠ k) :
    (m.set k v).find? k2 = m.find? k2 :=
  assocFind_assocSet_other m k k2 v hk

/-- An item stored with `SetDefault` at `later` is found until `later +
cacheDuration`. -/
theorem Cache.Get_SetDefault (c : Cache) (k : String) (x : Value) (later now : Nat)
    (h : now ≤ later + cacheDuration) : (c.SetDefault k x later).Get k now = some x := by
  unfold Cache.Get Cache.SetDefault
  rw [assocFind_assocSet_same]
  simp only
  rw [if_neg]
  omega

theorem Cache.WellTyped_find (c : Cache) (h : c.WellTyped = true) (k : String) (item : Item)
    (hf : assocFind c k = some item) : kindOK k item.object = true := by
  induction c with
  | nil => simp [assocFind] at hf
  | cons e m ih =>
    obtain ⟨k1, v1⟩ := e
    simp only [Cache.WellTyped, List.all_cons, Bool.and_eq_true] at h
    by_cases hk : k1 = k
    · subst hk
      simp only [assocFind, if_true, Option.some.injEq] at hf
      subst hf
      exact h.1
    · simp only [assocFind, hk, if_false] at hf
      exact ih h.2 hf

theorem Cache.WellTyped_Get (c : Cache) (h : c.WellTyped = true) (k : String) (now : Nat)
    (x : Value) (hg : c.Get k now = some x) : kindOK k x = true := by
  unfold Cache.Get at hg
  split at hg
  · cases hg
  · rename_i item hf
    split at hg
    · cases hg
    · simp only [Option.some.injEq] at hg
      subst hg
      exact Cache.WellTyped_find c h k item hf

theorem Cache.WellTyped_SetDefault (c : Cache) (h : c.WellTyped = true) (k : String) (x : Value)
    (now : Nat) (hx : kindOK k x = true) : (c.SetDefault k x now).WellTyped = true := by
  unfold Cache.SetDefault
  induction c with
  | nil => simp [assocSet, Cache.WellTyped, hx]
  | cons e m ih =>
    obtain ⟨k1, v1⟩ := e
    simp only [Cache.WellTyped, List.all_cons, Bool.and_eq_true] at h
    by_cases hk : k1 = k
    · simp only [assocSet, hk, if_true, Cache.WellTyped, List.all_cons, Bool.and_eq_true]
      exact ⟨hx, h.2⟩
    · simp only [assocSet, hk, if_false, Cache.WellTyped, List.all_cons, Bool.and_eq_true]
      exact ⟨h.1, ih h.2⟩

/-! ## Facts about the provider clients -/

/-- The five provider methods are instances of the shared body. -/
theorem providers_eq_cacheOrFetch (c : Codec) :
    CryptocompareBTCDASHAverage c
      = cacheOrFetch cryptocompareURL "Failed to fetch BTCDASH rate from CryptoCompare"
          (decodeCryptocompare c) Value.scalar Value.asScalar ∧
    PoloniexBTCDASHAverage c
      = cacheOrFetch poloniexURL "Failed to fetch BTCDASH average rate from Poloniex"
          (decodePoloniex c) Value.scalar Value.asScalar ∧
    BitcoinaverageCurrentBTCDASHRate c
      = cacheOrFetch bitcoinaverageDashURL "Failed to fetch BTCDASH rate from BitcoinAverage"
          (fun body => .value (c.last body) none) Value.scalar Value.asScalar ∧
    BitcoinaverageRates c
      = cacheOrFetch bitcoinaverageRatesURL "Failed to fetch rates from BitcoinAverage"
          (decodeRates c) Value.table Value.asTable ∧
    DashCasaDASHVESRate c
      = cacheOrFetch dashCasaURL "Failed to fetch DASHVES rate from Dash Casa"
          (fun body => .value (c.dashrate body) none) Value.scalar Value.asScalar := by
  refine ⟨?_, ?_, ?_, ?_, ?_⟩ <;> funext w
  · have hru : (w.request cryptocompareURL).upstream = w.upstream := rfl
    unfold CryptocompareBTCDASHAverage cacheOrFetch decodeCryptocompare
    simp only [hru]
    cases w.cacheGet cryptocompareURL with
    | some x => rfl
    | none =>
      simp only
      by_cases herr : 1 < w.upstream.resp.errs.length
      · simp only [herr, if_true]
      · simp only [herr, if_false]
        cases c.rawPrice w.upstream.resp.body with
        | nil => rfl
        | cons b tail =>
          simp only
          cases (c.parseFloat tail).2 <;> rfl
  · have hru : (w.request poloniexURL).upstream = w.upstream := rfl
    unfold PoloniexBTCDASHAverage cacheOrFetch decodePoloniex
    simp only [hru]
  · have hru : (w.request bitcoinaverageDashURL).upstream = w.upstream := rfl
    unfold BitcoinaverageCurrentBTCDASHRate cacheOrFetch
    simp only [hru]
  · have hru : (w.request bitcoinaverageRatesURL).upstream = w.upstream := rfl
    unfold BitcoinaverageRates cacheOrFetch decodeRates
    simp only [hru]
    cases w.cacheGet bitcoinaverageRatesURL with
    | some x => rfl
    | none =>
      simp only
      by_cases herr : 1 < w.upstream.resp.errs.length
      · simp only [herr, if_true]
      · simp only [herr, if_false]
        cases collectRates (c.ticker w.upstream.resp.body) [] <;> rfl
  · have hru : (w.request dashCasaURL).upstream = w.upstream := rfl
    unfold DashCasaDASHVESRate cacheOrFetch
    simp only [hru]

/-- A live entry is returned as it is: no request, no change of the cache. -/
theorem cacheOrFetch_hit {α : Type} (url failure : String) (decode : String → Decoded α)
    (box : α → Value) (unbox : Value → α) (w : World) (x : Value)
    (h : w.cacheGet url = some x) :
    cacheOrFetch url failure decode box unbox w = ⟨.ok (unbox x), w.returned⟩ := by
  unfold cacheOrFetch
  simp only [h]

/-- On a miss with two or more transport errors the client fails and the
cache is left as it was. -/
theorem cacheOrFetch_errors {α : Type} (url failure : String) (decode : String → Decoded α)
    (box : α → Value) (unbox : Value → α) (w : World)
    (h : w.cacheGet url = none)
    (herr : 1 < w.upstream.resp.errs.length) :
    (cacheOrFetch url failure decode box unbox w).out = .err (.http 500 failure) ∧
    (cacheOrFetch url failure decode box unbox w).world.cache = w.cache ∧
    (cacheOrFetch url failure decode box unbox w).world.requests = w.requests ++ [url] := by
  have e : cacheOrFetch url failure decode box unbox w
      = ⟨.err (.http 500 failure),
          ((w.request url).broadcastErr (w.upstream.resp.errs.headD "")).returned⟩ := by
    unfold cacheOrFetch
    simp only [h, herr, if_true]
  rw [e]
  exact ⟨rfl, rfl, rfl⟩

/-- On a miss with at most one transport error the body is decoded and the
value is stored, whatever the error was. -/
theorem cacheOrFetch_store {α : Type} (url failure : String) (decode : String → Decoded α)
    (box : α → Value) (unbox : Value → α) (w : World) (v : α) (e : Option GoError)
    (h : w.cacheGet url = none)
    (herr : w.upstream.resp.errs.length ≤ 1)
    (hdec : decode w.upstream.resp.body = .value v e) :
    (cacheOrFetch url failure decode box unbox w).out
        = (match e with
           | none => .ok v
           | some e => .err e) ∧
    (cacheOrFetch url failure decode box unbox w).world.cache
        = w.cache.SetDefault url (box v) w.upstream.later ∧
    (cacheOrFetch url failure decode box unbox w).world.requests = w.requests ++ [url] := by
  have hn : ¬ 1 < w.upstream.resp.errs.length := by omega
  have e2 : cacheOrFetch url failure decode box unbox w
      = ⟨(match e with
          | none => .ok v
          | some e => .err e),
          ((w.request url).cacheSetDefault url (box v)).returned⟩ := by
    unfold cacheOrFetch
    simp only [h, hn, if_false, hdec]
    cases e <;> rfl
  rw [e2]
  exact ⟨rfl, rfl, rfl⟩

/-- A successful fetch on a miss was decoded from the body and stored. -/
theorem cacheOrFetch_miss_ok {α : Type} (url failure : String) (decode : String → Decoded α)
    (box : α → Value) (unbox : Value → α) (w : World) (v : α)
    (h : w.cacheGet url = none)
    (hok : (cacheOrFetch url failure decode box unbox w).out = .ok v) :
    (cacheOrFetch url failure decode box unbox w).world.cache
        = w.cache.SetDefault url (box v) w.upstream.later ∧
    (cacheOrFetch url failure decode box unbox w).world.requests = w.requests ++ [url] := by
  by_cases herr : 1 < w.upstream.resp.errs.length
  · rw [(cacheOrFetch_errors url failure decode box unbox w h herr).1] at hok
    cases hok
  · cases hdec : decode w.upstream.resp.body with
    | panic m =>
      unfold cacheOrFetch at hok
      simp only [h, herr, if_false, hdec] at hok
      cases hok
    | value v2 e =>
      have hs := cacheOrFetch_store url failure decode box unbox w v2 e h (by omega) hdec
      cases e with
      | none =>
        rw [hs.1] at hok
        simp only [Outcome.ok.injEq] at hok
        subst hok
        exact ⟨hs.2.1, hs.2.2⟩
      | some e =>
        rw [hs.1] at hok
        cases hok

/-! ## Claims about the validator -/

/-- C1 (the code departs from the claim).  `ZZZ` meets the premises of the
claim: it matches the regular expression, does not select the sentinel and
is not a supported code.  The binary search returns `len(supportedCurrencies)`
for it, the index expression of line 237 is evaluated without a bounds check,
and the handler panics instead of returning the HTTP 400 error.  A miss inside
the table, such as `ABC`, does get the HTTP 400 error. -/
theorem C1_miss_past_the_end_panics (c : Codec) (w : World) :
    matchCurrencySelection (GoStr.ofString "ZZZ") = true ∧
    strings_Index (GoStr.ofString "ZZZ") (GoStr.ofString "LIST") ≠ 0 ∧
    GoStr.ofString "ZZZ" ∈ strings_Split (GoStr.ofString "ZZZ") slash ∧
    GoStr.ofString "ZZZ" ∉ supportedCurrencies ∧
    sort_SearchStrings supportedCurrencies (GoStr.ofString "ZZZ") = supportedCurrencies.length ∧
    supportedCurrencies[sort_SearchStrings supportedCurrencies (GoStr.ofString "ZZZ")]? = none ∧
    selectCurrencies (normalizePath (GoStr.ofString "/ZZZ")) = .panic indexOutOfRange ∧
    (Wildcard c w (GoStr.ofString "/ZZZ")).out = .panic indexOutOfRange ∧
    selectCurrencies (normalizePath (GoStr.ofString "/ABC")) = .err unsupportedSelection := by
  have h : selectCurrencies (normalizePath (GoStr.ofString "/ZZZ")) = .panic indexOutOfRange := by
    decide!
  refine ⟨by decide!, by decide!, by decide!, by decide!, by decide!, by decide!, h, ?_,
    by decide!⟩
  unfold Wildcard
  rw [h]

/-- C2.  For every non-empty list `codes` of supported codes and every path
`lead ++ body ++ trail` in which `body` upper-cases to the codes joined by
slashes and `lead`, `trail` are empty or one slash, the validator accepts and
`selectedCurrencies` is `codes`, in the same order. -/
theorem C2_joined_supported_codes_are_selected (codes : List GoStr) (lead body trail : GoStr)
    (hne : codes ≠ []) (hsup : ∀ code ∈ codes, code ∈ supportedCurrencies)
    (hlead : lead = [] ∨ lead = [slash]) (htrail : trail = [] ∨ trail = [slash])
    (hbody : strings_ToUpper body = strings_Join codes slash) :
    selectCurrencies (normalizePath (lead ++ body ++ trail)) = .ok codes := by
  have hall : ∀ code ∈ codes, isCode code = true := fun code hc =>
    isCode_of_supported (hsup code hc)
  rw [normalizePath_join codes lead body trail hne hall hlead htrail hbody]
  have hpre := strings_Join_not_sentinel codes hall
  have hidx : strings_Index (strings_Join codes slash) (GoStr.ofString "LIST") ≠ 0 := by
    intro h0
    have := (strings_Index_eq_zero_iff _ _ (by rw [listSentinel_bytes]; simp)).mp h0
    rw [hpre] at this
    cases this
  unfold selectCurrencies
  rw [if_pos hidx, (matchCurrencySelection_join codes hall).1]
  simp only [Bool.true_eq_false, if_false]
  rw [strings_Split_join codes hne (fun code hc => isCode_slash_not_mem (hall code hc)),
    checkSupported_ok codes hsup]

/-- C2 at `/usd/Eur/`. -/
theorem C2_joined_supported_codes_are_selected_witness :
    selectCurrencies (normalizePath ([slash] ++ GoStr.ofString "usd/Eur" ++ [slash]))
      = .ok [GoStr.ofString "USD", GoStr.ofString "EUR"] :=
  C2_joined_supported_codes_are_selected [GoStr.ofString "USD", GoStr.ofString "EUR"]
    [slash] (GoStr.ofString "usd/Eur") [slash]
    (by decide!) (by decide!) (by decide!) (by decide!) (by decide!)

/-- C3 as stated fails: `LISTING` and `LIST/USD` are not the sentinel
and do not match the regular expression, yet they are not rejected: they select
every supported currency. -/
theorem C3_counterexample_sentinel_prefix :
    normalizePath (GoStr.ofString "/LISTING") = GoStr.ofString "LISTING" ∧
    GoStr.ofString "LISTING" ≠ GoStr.ofString "LIST" ∧
    matchCurrencySelection (GoStr.ofString "LISTING") = false ∧
    selectCurrencies (GoStr.ofString "LISTING") ≠ .err malformedSelection ∧
    selectCurrencies (GoStr.ofString "LISTING") = .ok supportedCurrencies ∧
    normalizePath (GoStr.ofString "/list/usd") = GoStr.ofString "LIST/USD" ∧
    matchCurrencySelection (GoStr.ofString "LIST/USD") = false ∧
    selectCurrencies (GoStr.ofString "LIST/USD") = .ok supportedCurrencies := by
  refine ⟨by decide!, by decide!, by decide!, by decide!, by decide!, by decide!, by decide!,
    by decide!⟩

/-- C3, amended.  The test of line 228 is a test of the first four bytes: a
normalised path that begins with `LIST` selects every supported currency,
unvalidated; a path that does not begin with `LIST` and does not match the
regular expression is rejected with the HTTP 400 "Malformed currency
selection" error; and a path that does not begin with `LIST` is accepted only
with its own slash-separated pieces, all supported, as the selection. -/
theorem C3_sentinel_is_a_prefix_test (s : GoStr) :
    (strings_HasPrefix s (GoStr.ofString "LIST") = true →
      selectCurrencies s = .ok supportedCurrencies) ∧
    (strings_HasPrefix s (GoStr.ofString "LIST") = false →
      matchCurrencySelection s = false → selectCurrencies s = .err malformedSelection) ∧
    (strings_HasPrefix s (GoStr.ofString "LIST") = false →
      ∀ sel, selectCurrencies s = .ok sel →
        matchCurrencySelection s = true ∧ sel = strings_Split s slash ∧
          ∀ code ∈ sel, code ∈ supportedCurrencies) := by
  have hiff := strings_Index_eq_zero_iff s (GoStr.ofString "LIST")
    (by rw [listSentinel_bytes]; simp)
  refine ⟨fun hp => ?_, fun hp hm => ?_, fun hp sel hsel => ?_⟩
  · unfold selectCurrencies
    rw [if_neg (not_not.mpr (hiff.mpr hp))]
  · have hidx : strings_Index s (GoStr.ofString "LIST") ≠ 0 := by
      intro h0
      rw [hiff.mp h0] at hp
      cases hp
    unfold selectCurrencies
    rw [if_pos hidx, if_pos hm]
  · have hidx : strings_Index s (GoStr.ofString "LIST") ≠ 0 := by
      intro h0
      rw [hiff.mp h0] at hp
      cases hp
    unfold selectCurrencies at hsel
    rw [if_pos hidx] at hsel
    by_cases hm : matchCurrencySelection s = false
    · rw [if_pos hm] at hsel
      cases hsel
    · rw [if_neg hm] at hsel
      simp only at hsel
      have hm2 : matchCurrencySelection s = true := by simpa using hm
      cases hcs : checkSupported (strings_Split s slash) with
      | ok u =>
        rw [hcs] at hsel
        cases u
        simp only [Outcome.ok.injEq] at hsel
        subst hsel
        exact ⟨hm2, rfl, checkSupported_ok_mem _ hcs⟩
      | err e =>
        rw [hcs] at hsel
        cases hsel
      | panic m =>
        rw [hcs] at hsel
        cases hsel

/-- C3 (amended) at `LISTING`, at `US` and at `USD/EUR`. -/
theorem C3_sentinel_is_a_prefix_test_witness :
    selectCurrencies (GoStr.ofString "LISTING") = .ok supportedCurrencies ∧
    selectCurrencies (GoStr.ofString "US") = .err malformedSelection ∧
    (matchCurrencySelection (GoStr.ofString "USD/EUR") = true ∧
      [GoStr.ofString "USD", GoStr.ofString "EUR"]
        = strings_Split (GoStr.ofString "USD/EUR") slash ∧
      ∀ code ∈ [GoStr.ofString "USD", GoStr.ofString "EUR"], code ∈ supportedCurrencies) :=
  ⟨(C3_sentinel_is_a_prefix_test (GoStr.ofString "LISTING")).1 (by decide!),
   (C3_sentinel_is_a_prefix_test (GoStr.ofString "US")).2.1 (by decide!) (by decide!),
   (C3_sentinel_is_a_prefix_test (GoStr.ofString "USD/EUR")).2.2 (by decide!) _ (by decide!)⟩

theorem kindOK_scalar {k : String} {x : Value} (hk : k ≠ bitcoinaverageRatesURL)
    (hs : k = cryptocompareURL ∨ k = poloniexURL ∨ k = bitcoinaverageDashURL ∨ k = dashCasaURL)
    (h : kindOK k x = true) : Value.scalar x.asScalar = x := by
  unfold kindOK at h
  rw [if_neg hk, if_pos hs] at h
  cases x with
  | scalar r => rfl
  | table m => cases h

theorem kindOK_table {x : Value} (h : kindOK bitcoinaverageRatesURL x = true) :
    Value.table x.asTable = x := by
  unfold kindOK at h
  rw [if_pos rfl] at h
  cases x with
  | scalar r => cases h
  | table m => rfl

theorem cacheOrFetch_serves {α : Type} (url failure : String) (decode : String → Decoded α)
    (box : α → Value) (unbox : Value → α) (w : World) (hwt : w.cache.WellTyped = true)
    (hbox : ∀ x, kindOK url x = true → box (unbox x) = x) :
    ServesCached (cacheOrFetch url failure decode box unbox) url box w := by
  intro x hx
  refine ⟨unbox x, hbox x (Cache.WellTyped_Get _ hwt _ _ _ hx), ?_⟩
  rw [cacheOrFetch_hit url failure decode box unbox w x hx]
  exact ⟨rfl, rfl, rfl⟩

theorem cacheOrFetch_second {α : Type} (url failure : String) (decode : String → Decoded α)
    (box : α → Value) (unbox : Value → α) (w : World) (hunbox : ∀ v, unbox (box v) = v) :
    SecondCallServed (cacheOrFetch url failure decode box unbox) url w := by
  intro hmiss v hok hnow
  obtain ⟨hcache, hreq⟩ := cacheOrFetch_miss_ok url failure decode box unbox w v hmiss hok
  have hget : (cacheOrFetch url failure decode box unbox w).world.cacheGet url = some (box v) := by
    unfold World.cacheGet
    rw [hcache]
    exact Cache.Get_SetDefault _ _ _ _ _ hnow
  rw [cacheOrFetch_hit url failure decode box unbox _ (box v) hget]
  exact ⟨by rw [hunbox], hreq, rfl⟩

/-! ## Claims about the provider clients -/

/-- C6 (the code departs from the claim).  The five clients test
`len(errs) > 1`.  With exactly one transport error the request is not treated
as failed: on a miss each client decodes the body of the failed request and
stores what it decoded.  `BitcoinaverageRates`, `PoloniexBTCDASHAverage`,
`BitcoinaverageCurrentBTCDASHRate` and `DashCasaDASHVESRate` return that value
with a nil error, and `CryptocompareBTCDASHAverage` panics when the price
string is empty, as it is for an empty body.  Only with two or more errors
does a client return the HTTP 500 error and leave the cache as it was
(`cacheOrFetch_errors`). -/
theorem C6_single_transport_error_is_stored (c : Codec) (w : World)
    (herr : w.upstream.resp.errs.length = 1) :
    (w.cacheGet bitcoinaverageRatesURL = none →
      ∀ rates, collectRates (c.ticker w.upstream.resp.body) [] = some rates →
        (BitcoinaverageRates c w).out = .ok rates ∧
        (BitcoinaverageRates c w).world.cache
          = w.cache.SetDefault bitcoinaverageRatesURL (.table rates) w.upstream.later ∧
        (BitcoinaverageRates c w).world.cache.Get bitcoinaverageRatesURL w.upstream.later
          = some (.table rates)) ∧
    (w.cacheGet cryptocompareURL = none →
      c.rawPrice w.upstream.resp.body = [] →
        (CryptocompareBTCDASHAverage c w).out = .panic sliceOutOfRange) ∧
    (w.cacheGet poloniexURL = none →
      (PoloniexBTCDASHAverage c w).out
          = .ok (F64.div ((c.tradeRates w.upstream.resp.body).foldl F64.add F64.zero)
              (F64.ofNat (c.tradeRates w.upstream.resp.body).length)) ∧
      (PoloniexBTCDASHAverage c w).world.cache
          = w.cache.SetDefault poloniexURL
              (.scalar (F64.div ((c.tradeRates w.upstream.resp.body).foldl F64.add F64.zero)
                (F64.ofNat (c.tradeRates w.upstream.resp.body).length))) w.upstream.later) ∧
    (w.cacheGet bitcoinaverageDashURL = none →
      (BitcoinaverageCurrentBTCDASHRate c w).out = .ok (c.last w.upstream.resp.body) ∧
      (BitcoinaverageCurrentBTCDASHRate c w).world.cache
          = w.cache.SetDefault bitcoinaverageDashURL (.scalar (c.last w.upstream.resp.body))
              w.upstream.later) ∧
    (w.cacheGet dashCasaURL = none →
      (DashCasaDASHVESRate c w).out = .ok (c.dashrate w.upstream.resp.body) ∧
      (DashCasaDASHVESRate c w).world.cache
          = w.cache.SetDefault dashCasaURL (.scalar (c.dashrate w.upstream.resp.body))
              w.upstream.later) := by
  have herr1 : w.upstream.resp.errs.length ≤ 1 := by omega
  have hn : ¬ 1 < w.upstream.resp.errs.length := by omega
  obtain ⟨e1, e2, e3, e4, e5⟩ := providers_eq_cacheOrFetch c
  refine ⟨fun hmiss rates hbody => ?_, fun hmiss hbody => ?_, fun hmiss => ?_, fun hmiss => ?_,
    fun hmiss => ?_⟩
  · have hdec : decodeRates c w.upstream.resp.body = .value rates none := by
      unfold decodeRates
      rw [hbody]
    have hs := cacheOrFetch_store bitcoinaverageRatesURL
      "Failed to fetch rates from BitcoinAverage" (decodeRates c)
      Value.table Value.asTable w rates none hmiss herr1 hdec
    rw [e4]
    refine ⟨hs.1, hs.2.1, ?_⟩
    rw [hs.2.1]
    exact Cache.Get_SetDefault _ _ _ _ _ (Nat.le_add_right _ _)
  · rw [e1]
    unfold cacheOrFetch decodeCryptocompare
    simp only [hmiss, hn, if_false, hbody]
  · have hs := cacheOrFetch_store poloniexURL
      "Failed to fetch BTCDASH average rate from Poloniex" (decodePoloniex c)
      Value.scalar Value.asScalar w _ none hmiss herr1 rfl
    rw [e2]
    exact ⟨hs.1, hs.2.1⟩
  · have hs := cacheOrFetch_store bitcoinaverageDashURL
      "Failed to fetch BTCDASH rate from BitcoinAverage" (fun body => .value (c.last body) none)
      Value.scalar Value.asScalar w _ none hmiss herr1 rfl
    rw [e3]
    exact ⟨hs.1, hs.2.1⟩
  · have hs := cacheOrFetch_store dashCasaURL
      "Failed to fetch DASHVES rate from Dash Casa" (fun body => .value (c.dashrate body) none)
      Value.scalar Value.asScalar w _ none hmiss herr1 rfl
    rw [e5]
    exact ⟨hs.1, hs.2.1⟩

/-- C6 at the world in which the first provider call meets one transport
error and the failed request has an empty body. -/
theorem C6_single_transport_error_is_stored_witness :
    ((BitcoinaverageRates (mockCodec F64.zero F64.zero [] F64.zero []) (troubledWorld 0 1)).out
        = .ok [] ∧
      (BitcoinaverageRates (mockCodec F64.zero F64.zero [] F64.zero [])
          (troubledWorld 0 1)).world.cache
        = (troubledWorld 0 1).cache.SetDefault bitcoinaverageRatesURL (.table [])
            (troubledWorld 0 1).upstream.later ∧
      (BitcoinaverageRates (mockCodec F64.zero F64.zero [] F64.zero [])
          (troubledWorld 0 1)).world.cache.Get bitcoinaverageRatesURL
            (troubledWorld 0 1).upstream.later
        = some (.table [])) ∧
    ((BitcoinaverageCurrentBTCDASHRate (mockCodec F64.zero F64.zero [] F64.zero [])
        (troubledWorld 0 1)).out = .ok F64.zero ∧
      (BitcoinaverageCurrentBTCDASHRate (mockCodec F64.zero F64.zero [] F64.zero [])
          (troubledWorld 0 1)).world.cache
        = (troubledWorld 0 1).cache.SetDefault bitcoinaverageDashURL (.scalar F64.zero)
            (troubledWorld 0 1).upstream.later) :=
  ⟨(C6_single_transport_error_is_stored (mockCodec F64.zero F64.zero [] F64.zero [])
      (troubledWorld 0 1) (by decide!)).1 (by decide!) [] (by decide!),
   (C6_single_transport_error_is_stored (mockCodec F64.zero F64.zero [] F64.zero [])
      (troubledWorld 0 1) (by decide!)).2.2.2.1 (by decide!)⟩

/-- The clients do fail on two or more transport errors, leaving the cache as
it was. -/
theorem providers_fail_on_two_errors (c : Codec) (w : World)
    (hmiss : w.cacheGet bitcoinaverageRatesURL = none)
    (herr : 1 < w.upstream.resp.errs.length) :
    (BitcoinaverageRates c w).out
        = .err (.http 500 "Failed to fetch rates from BitcoinAverage") ∧
    (BitcoinaverageRates c w).world.cache = w.cache := by
  rw [(providers_eq_cacheOrFetch c).2.2.2.1]
  exact ⟨(cacheOrFetch_errors _ _ _ _ _ w hmiss herr).1,
    (cacheOrFetch_errors _ _ _ _ _ w hmiss herr).2.1⟩

/-- C7 (the code departs from the claim).  On a miss, when the trade history
has no record, `rateTotal / float64(rateCount)` is `0.0 / 0.0`: the client
returns NaN with a nil error and stores NaN in the cache. -/
theorem C7_zero_trades_store_NaN (c : Codec) (w : World)
    (hmiss : w.cacheGet poloniexURL = none)
    (herr : w.upstream.resp.errs.length ≤ 1)
    (hzero : c.tradeRates w.upstream.resp.body = []) :
    (PoloniexBTCDASHAverage c w).out = .ok F64.nan ∧
    (PoloniexBTCDASHAverage c w).world.cache
      = w.cache.SetDefault poloniexURL (.scalar F64.nan) w.upstream.later ∧
    (PoloniexBTCDASHAverage c w).world.cache.Get poloniexURL w.upstream.later
      = some (.scalar F64.nan) := by
  have hdec : decodePoloniex c w.upstream.resp.body = .value F64.nan none := by
    unfold decodePoloniex
    rw [hzero]
    have h0 : F64.div ((([] : List F64)).foldl F64.add F64.zero)
        (F64.ofNat ([] : List F64).length) = F64.nan := by decide!
    rw [h0]
  have hs := cacheOrFetch_store poloniexURL
    "Failed to fetch BTCDASH average rate from Poloniex" (decodePoloniex c)
    Value.scalar Value.asScalar w F64.nan none hmiss herr hdec
  rw [(providers_eq_cacheOrFetch c).2.1]
  refine ⟨hs.1, hs.2.1, ?_⟩
  rw [hs.2.1]
  exact Cache.Get_SetDefault _ _ _ _ _ (Nat.le_add_right _ _)

/-- C7 at the calm world with an empty trade history. -/
theorem C7_zero_trades_store_NaN_witness :
    (PoloniexBTCDASHAverage (mockCodec F64.zero F64.zero [] F64.zero []) calmWorld).out
      = .ok F64.nan ∧
    (PoloniexBTCDASHAverage (mockCodec F64.zero F64.zero [] F64.zero []) calmWorld).world.cache
      = calmWorld.cache.SetDefault poloniexURL (.scalar F64.nan) calmWorld.upstream.later ∧
    (PoloniexBTCDASHAverage (mockCodec F64.zero F64.zero [] F64.zero [])
        calmWorld).world.cache.Get poloniexURL calmWorld.upstream.later
      = some (.scalar F64.nan) :=
  C7_zero_trades_store_NaN (mockCodec F64.zero F64.zero [] F64.zero []) calmWorld
    (by decide!) (by decide!) (by decide!)

theorem bitcoinaverageRatesURL_distinct :
    cryptocompareURL ≠ bitcoinaverageRatesURL ∧ poloniexURL ≠ bitcoinaverageRatesURL ∧
    bitcoinaverageDashURL ≠ bitcoinaverageRatesURL ∧ dashCasaURL ≠ bitcoinaverageRatesURL := by
  decide!

/-- A provider call keeps the typing invariant of the cache. -/
theorem cacheOrFetch_wellTyped {α : Type} (url failure : String) (decode : String → Decoded α)
    (box : α → Value) (unbox : Value → α) (w : World) (hwt : w.cache.WellTyped = true)
    (hbox : ∀ v, kindOK url (box v) = true) :
    (cacheOrFetch url failure decode box unbox w).world.cache.WellTyped = true := by
  unfold cacheOrFetch
  split
  · split
    · exact hwt
    · split
      · exact hwt
      · exact Cache.WellTyped_SetDefault _ hwt _ _ _ (hbox _)
      · exact Cache.WellTyped_SetDefault _ hwt _ _ _ (hbox _)
  · exact hwt

/-- The five providers keep the typing invariant of the cache, which holds of
the empty cache `main` starts with. -/
theorem providers_keep_cache_wellTyped (c : Codec) (w : World) (hwt : w.cache.WellTyped = true) :
    Cache.WellTyped [] = true ∧
    (CryptocompareBTCDASHAverage c w).world.cache.WellTyped = true ∧
    (PoloniexBTCDASHAverage c w).world.cache.WellTyped = true ∧
    (BitcoinaverageCurrentBTCDASHRate c w).world.cache.WellTyped = true ∧
    (BitcoinaverageRates c w).world.cache.WellTyped = true ∧
    (DashCasaDASHVESRate c w).world.cache.WellTyped = true := by
  obtain ⟨h1, h2, h3, h4⟩ := bitcoinaverageRatesURL_distinct
  obtain ⟨e1, e2, e3, e4, e5⟩ := providers_eq_cacheOrFetch c
  rw [e1, e2, e3, e4, e5]
  refine ⟨rfl, ?_, ?_, ?_, ?_, ?_⟩
  · exact cacheOrFetch_wellTyped _ _ _ _ _ w hwt (fun v => by simp [kindOK, h1])
  · exact cacheOrFetch_wellTyped _ _ _ _ _ w hwt (fun v => by simp [kindOK, h2])
  · exact cacheOrFetch_wellTyped _ _ _ _ _ w hwt (fun v => by simp [kindOK, h3])
  · exact cacheOrFetch_wellTyped _ _ _ _ _ w hwt (fun v => by simp [kindOK])
  · exact cacheOrFetch_wellTyped _ _ _ _ _ w hwt (fun v => by simp [kindOK, h4])

/-- C8.  In every world whose cache is well typed (as every cache the
providers have written is), each of the five clients serves a live entry of
its key from the cache: it returns exactly the cached value, without error,
sends no request and leaves the cache as it was.  Hence, when a call misses
and fetches successfully and the next call starts within `cacheDuration` of
the store, the next call returns the same value and the two calls have sent
exactly one request. -/
theorem C8_live_entries_are_served_from_the_cache (c : Codec) (w : World)
    (hwt : w.cache.WellTyped = true) :
    (ServesCached (CryptocompareBTCDASHAverage c) cryptocompareURL Value.scalar w ∧
     ServesCached (PoloniexBTCDASHAverage c) poloniexURL Value.scalar w ∧
     ServesCached (BitcoinaverageCurrentBTCDASHRate c) bitcoinaverageDashURL Value.scalar w ∧
     ServesCached (BitcoinaverageRates c) bitcoinaverageRatesURL Value.table w ∧
     ServesCached (DashCasaDASHVESRate c) dashCasaURL Value.scalar w) ∧
    (SecondCallServed (CryptocompareBTCDASHAverage c) cryptocompareURL w ∧
     SecondCallServed (PoloniexBTCDASHAverage c) poloniexURL w ∧
     SecondCallServed (BitcoinaverageCurrentBTCDASHRate c) bitcoinaverageDashURL w ∧
     SecondCallServed (BitcoinaverageRates c) bitcoinaverageRatesURL w ∧
     SecondCallServed (DashCasaDASHVESRate c) dashCasaURL w) := by
  obtain ⟨h1, h2, h3, h4⟩ := bitcoinaverageRatesURL_distinct
  obtain ⟨e1, e2, e3, e4, e5⟩ := providers_eq_cacheOrFetch c
  rw [e1, e2, e3, e4, e5]
  refine ⟨⟨?_, ?_, ?_, ?_, ?_⟩, ⟨?_, ?_, ?_, ?_, ?_⟩⟩
  · exact cacheOrFetch_serves _ _ _ _ _ w hwt
      (fun x hx => kindOK_scalar h1 (Or.inl rfl) hx)
  · exact cacheOrFetch_serves _ _ _ _ _ w hwt
      (fun x hx => kindOK_scalar h2 (Or.inr (Or.inl rfl)) hx)
  · exact cacheOrFetch_serves _ _ _ _ _ w hwt
      (fun x hx => kindOK_scalar h3 (Or.inr (Or.inr (Or.inl rfl))) hx)
  · exact cacheOrFetch_serves _ _ _ _ _ w hwt (fun x hx => kindOK_table hx)
  · exact cacheOrFetch_serves _ _ _ _ _ w hwt
      (fun x hx => kindOK_scalar h4 (Or.inr (Or.inr (Or.inr rfl))) hx)
  · exact cacheOrFetch_second _ _ _ _ _ w (fun _ => rfl)
  · exact cacheOrFetch_second _ _ _ _ _ w (fun _ => rfl)
  · exact cacheOrFetch_second _ _ _ _ _ w (fun _ => rfl)
  · exact cacheOrFetch_second _ _ _ _ _ w (fun _ => rfl)
  · exact cacheOrFetch_second _ _ _ _ _ w (fun _ => rfl)

/-- C8 at the warm world, whose cache holds a live rate table, and at the
calm world, where the first call for the secondary rate misses and fetches
`0.02`. -/
theorem C8_live_entries_are_served_from_the_cache_witness :
    (∃ v, Value.table v = .table [(GoStr.ofString "USD", F64.ofNat 50000)] ∧
      (BitcoinaverageRates (mockCodec F64.zero F64.zero [] F64.zero []) warmWorld).out = .ok v ∧
      (BitcoinaverageRates (mockCodec F64.zero F64.zero [] F64.zero []) warmWorld).world.cache
        = warmWorld.cache ∧
      (BitcoinaverageRates (mockCodec F64.zero F64.zero [] F64.zero []) warmWorld).world.requests
        = warmWorld.requests) ∧
    ((BitcoinaverageCurrentBTCDASHRate (mockCodec F64.zero (F64.ofFrac 2 100) [] F64.zero [])
        (BitcoinaverageCurrentBTCDASHRate (mockCodec F64.zero (F64.ofFrac 2 100) [] F64.zero [])
          calmWorld).world).out = .ok (F64.ofFrac 2 100) ∧
      (BitcoinaverageCurrentBTCDASHRate (mockCodec F64.zero (F64.ofFrac 2 100) [] F64.zero [])
        (BitcoinaverageCurrentBTCDASHRate (mockCodec F64.zero (F64.ofFrac 2 100) [] F64.zero [])
          calmWorld).world).world.requests = calmWorld.requests ++ [bitcoinaverageDashURL] ∧
      (BitcoinaverageCurrentBTCDASHRate (mockCodec F64.zero (F64.ofFrac 2 100) [] F64.zero [])
        (BitcoinaverageCurrentBTCDASHRate (mockCodec F64.zero (F64.ofFrac 2 100) [] F64.zero [])
          calmWorld).world).world.cache
        = (BitcoinaverageCurrentBTCDASHRate
            (mockCodec F64.zero (F64.ofFrac 2 100) [] F64.zero []) calmWorld).world.cache) :=
  ⟨(C8_live_entries_are_served_from_the_cache (mockCodec F64.zero F64.zero [] F64.zero [])
      warmWorld (by decide!)).1.2.2.2.1 _ (by decide!),
   (C8_live_entries_are_served_from_the_cache
      (mockCodec F64.zero (F64.ofFrac 2 100) [] F64.zero []) calmWorld (by decide!)).2.2.2.1
      (by decide!) _ (by decide!) (by decide!)⟩

/-! ## Facts about the aggregator -/

theorem ratesLoop_cons_ves (c : Codec) (btcRates : GoMap) (r : F64) (rest : List GoStr)
    (rates : GoMap) (w : World) :
    ratesLoop c btcRates r (VES :: rest) rates w =
      (match (DashCasaDASHVESRate c w).out with
       | .err e => ⟨.err e, (DashCasaDASHVESRate c w).world⟩
       | .panic m => ⟨.panic m, (DashCasaDASHVESRate c w).world⟩
       | .ok rate =>
         ratesLoop c btcRates r rest (rates.set VES rate) (DashCasaDASHVESRate c w).world) := by
  rw [ratesLoop, if_pos rfl]

theorem ratesLoop_cons_other (c : Codec) (btcRates : GoMap) (r : F64) (currency : GoStr)
    (rest : List GoStr) (rates : GoMap) (w : World) (h : currency ≠ VES) :
    ratesLoop c btcRates r (currency :: rest) rates w =
      ratesLoop c btcRates r rest
        (rates.set currency (F64.mul (btcRates.get currency) r)) w := by
  rw [ratesLoop, if_neg h]

/-- Lines 245-260 done, the handler is its loop and what follows it. -/
theorem Wildcard_eq_logAndRespond (c : Codec) (w : World) (path : GoStr) (sel : List GoStr)
    (btcRates : GoMap) (r : F64)
    (hsel : selectCurrencies (normalizePath path) = .ok sel)
    (hrates : (BitcoinaverageRates c w).out = .ok btcRates)
    (hrate : (btcDashRateInUse c (BitcoinaverageRates c w).world).out = .ok r) :
    Wildcard c w path = logAndRespond (ratesLoop c btcRates r sel [] (loopWorld c w)) := by
  unfold Wildcard loopWorld
  simp only [hsel, hrates, hrate]

/-- The handler answers exactly when the loop ends well with numbers only. -/
theorem logAndRespond_ok_iff (l : Ret GoMap) (rates : GoMap) :
    (logAndRespond l).out = .ok rates ↔ l.out = .ok rates ∧ rates.allFinite = true := by
  unfold logAndRespond Logger_Printj
  cases hl : l.out with
  | err e => simp
  | panic m => simp
  | ok v =>
    by_cases hf : v.allFinite = true
    · simp only [hf, if_true, Outcome.ok.injEq]
      constructor
      · intro h; subst h; exact ⟨rfl, hf⟩
      · intro h; exact h.1
    · simp only [hf, Bool.false_eq_true, if_false, Outcome.ok.injEq]
      constructor
      · intro h; cases h
      · rintro ⟨h1, h2⟩
        subst h1
        exact absurd h2 hf

theorem logAndRespond_err (l : Ret GoMap) (e : GoError) (h : l.out = .err e) :
    (logAndRespond l).out = .err e := by
  unfold logAndRespond
  simp only [h]

theorem logAndRespond_world (l : Ret GoMap) : (logAndRespond l).world = l.world := by
  unfold logAndRespond
  cases l.out with
  | err e => rfl
  | panic m => rfl
  | ok v =>
    simp only
    cases Logger_Printj v <;> rfl

theorem GoMap.allFinite_set (m : GoMap) (k : GoStr) (v : F64) (hm : m.allFinite = true)
    (hv : v.isFinite = true) : (m.set k v).allFinite = true := by
  unfold GoMap.set
  induction m with
  | nil => simp [assocSet, GoMap.allFinite, hv]
  | cons e m ih =>
    obtain ⟨k1, v1⟩ := e
    simp only [GoMap.allFinite, List.all_cons, Bool.and_eq_true] at hm
    by_cases hk : k1 = k
    · simp only [assocSet, hk, if_true, GoMap.allFinite, List.all_cons, Bool.and_eq_true]
      exact ⟨hv, hm.2⟩
    · simp only [assocSet, hk, if_false, GoMap.allFinite, List.all_cons, Bool.and_eq_true]
      exact ⟨hm.1, ih hm.2⟩

theorem GoMap.allFinite_find (m : GoMap) (k : GoStr) (v : F64) (hm : m.allFinite = true)
    (hf : m.find? k = some v) : v.isFinite = true := by
  unfold GoMap.find? at hf
  induction m with
  | nil => simp [assocFind] at hf
  | cons e m ih =>
    obtain ⟨k1, v1⟩ := e
    simp only [GoMap.allFinite, List.all_cons, Bool.and_eq_true] at hm
    by_cases hk : k1 = k
    · simp only [assocFind, hk, if_true, Option.some.injEq] at hf
      subst hf
      exact hm.1
    · simp only [assocFind, hk, if_false] at hf
      exact ih hm.2 hf

/-- What the loop leaves under a code other than `VES`. -/
theorem ratesLoop_find_other (c : Codec) (btcRates : GoMap) (r : F64) (sel : List GoStr) :
    ∀ (acc : GoMap) (w : World) (rates : GoMap),
      (ratesLoop c btcRates r sel acc w).out = .ok rates →
      ∀ code, code ≠ VES →
        rates.find? code
          = if code ∈ sel then some (F64.mul (btcRates.get code) r) else acc.find? code := by
  induction sel with
  | nil =>
    intro acc w rates h code _
    simp only [ratesLoop, Outcome.ok.injEq] at h
    subst h
    simp
  | cons cur rest ih =>
    intro acc w rates h code hcode
    by_cases hc : cur = VES
    · subst hc
      rw [ratesLoop_cons_ves] at h
      cases hd : (DashCasaDASHVESRate c w).out with
      | err e => rw [hd] at h; cases h
      | panic m => rw [hd] at h; cases h
      | ok v =>
        rw [hd] at h
        rw [ih _ _ _ h code hcode, GoMap.find?_set_other _ _ _ _ hcode]
        simp [hcode]
    · rw [ratesLoop_cons_other _ _ _ _ _ _ _ hc] at h
      rw [ih _ _ _ h code hcode]
      by_cases hm : code ∈ rest
      · simp [hm]
      · by_cases he : code = cur
        · subst he
          simp [hm, GoMap.find?_set_same]
        · rw [GoMap.find?_set_other _ _ _ _ he]
          simp [hm, he]

theorem afterVesCalls_succ (c : Codec) (k : Nat) (w : World) :
    afterVesCalls c (k + 1) w = afterVesCalls c k (DashCasaDASHVESRate c w).world := rfl

/-- The loop ends well when each of its calls of `DashCasaDASHVESRate` does. -/
theorem ratesLoop_ok (c : Codec) (btcRates : GoMap) (r : F64) (sel : List GoStr) :
    ∀ (acc : GoMap) (w : World),
      (∀ k, k < sel.count VES → ∃ v, (DashCasaDASHVESRate c (afterVesCalls c k w)).out = .ok v) →
      ∃ rates, (ratesLoop c btcRates r sel acc w).out = .ok rates := by
  induction sel with
  | nil => intro acc w _; exact ⟨acc, rfl⟩
  | cons cur rest ih =>
    intro acc w h
    by_cases hc : cur = VES
    · subst hc
      rw [ratesLoop_cons_ves]
      obtain ⟨v, hv⟩ := h 0 (by simp)
      have hv0 : (DashCasaDASHVESRate c w).out = .ok v := hv
      rw [hv0]
      apply ih
      intro k hk
      have := h (k + 1) (by simp; omega)
      rwa [afterVesCalls_succ] at this
    · rw [ratesLoop_cons_other _ _ _ _ _ _ _ hc]
      apply ih
      intro k hk
      exact h k (by rw [List.count_cons_of_ne (Ne.symm hc)]; exact hk)

/-- The loop fails with the error of the first call of `DashCasaDASHVESRate`
that fails. -/
theorem ratesLoop_err (c : Codec) (btcRates : GoMap) (r : F64) (sel : List GoStr) :
    ∀ (acc : GoMap) (w : World) (k : Nat) (e : GoError), k < sel.count VES →
      (∀ j, j < k → ∃ v, (DashCasaDASHVESRate c (afterVesCalls c j w)).out = .ok v) →
      (DashCasaDASHVESRate c (afterVesCalls c k w)).out = .err e →
      (ratesLoop c btcRates r sel acc w).out = .err e := by
  induction sel with
  | nil => intro acc w k e hk; simp at hk
  | cons cur rest ih =>
    intro acc w k e hk hj he
    by_cases hc : cur = VES
    · subst hc
      rw [ratesLoop_cons_ves]
      cases k with
      | zero =>
        have he0 : (DashCasaDASHVESRate c w).out = .err e := he
        rw [he0]
      | succ k =>
        obtain ⟨v, hv⟩ := hj 0 (by omega)
        have hv0 : (DashCasaDASHVESRate c w).out = .ok v := hv
        rw [hv0]
        apply ih _ _ k e
        · simp at hk; omega
        · intro j hjk
          have := hj (j + 1) (by omega)
          rwa [afterVesCalls_succ] at this
        · rwa [afterVesCalls_succ] at he
    · rw [ratesLoop_cons_other _ _ _ _ _ _ _ hc]
      apply ih _ _ k e
      · rwa [List.count_cons_of_ne (Ne.symm hc)] at hk
      · exact hj
      · exact he

/-- Without `VES` in the selection the loop leaves the entry of `VES` alone. -/
theorem ratesLoop_find_ves_absent (c : Codec) (btcRates : GoMap) (r : F64) (sel : List GoStr) :
    ∀ (acc : GoMap) (w : World) (rates : GoMap), VES ∉ sel →
      (ratesLoop c btcRates r sel acc w).out = .ok rates →
      rates.find? VES = acc.find? VES := by
  induction sel with
  | nil =>
    intro acc w rates _ h
    simp only [ratesLoop, Outcome.ok.injEq] at h
    subst h
    rfl
  | cons cur rest ih =>
    intro acc w rates hn h
    have hc : cur ≠ VES := fun hc => hn (hc ▸ List.mem_cons_self _ _)
    have hr : VES ∉ rest := fun hr => hn (List.mem_cons_of_mem _ hr)
    rw [ratesLoop_cons_other _ _ _ _ _ _ _ hc] at h
    rw [ih _ _ _ hr h, GoMap.find?_set_other _ _ _ _ (Ne.symm hc)]

/-- The entry the loop leaves under `VES` is the value of its last call of
`DashCasaDASHVESRate`. -/
theorem ratesLoop_find_ves (c : Codec) (btcRates : GoMap) (r : F64) (sel : List GoStr) :
    ∀ (acc : GoMap) (w : World) (rates : GoMap), VES ∈ sel →
      (ratesLoop c btcRates r sel acc w).out = .ok rates →
      ∃ v, (DashCasaDASHVESRate c (afterVesCalls c (sel.count VES - 1) w)).out = .ok v ∧
        rates.find? VES = some v := by
  induction sel with
  | nil => intro acc w rates hm; cases hm
  | cons cur rest ih =>
    intro acc w rates hm h
    by_cases hc : cur = VES
    · subst hc
      rw [ratesLoop_cons_ves] at h
      cases hd : (DashCasaDASHVESRate c w).out with
      | err e => rw [hd] at h; cases h
      | panic m => rw [hd] at h; cases h
      | ok v0 =>
        rw [hd] at h
        simp only at h
        by_cases hr : VES ∈ rest
        · obtain ⟨v, hv, hf⟩ := ih _ _ _ hr h
          refine ⟨v, ?_, hf⟩
          have hpos : 0 < rest.count VES := List.count_pos_iff.mpr hr
          have e1 : (VES :: rest).count VES - 1 = (rest.count VES - 1) + 1 := by
            simp; omega
          rw [e1, afterVesCalls_succ]
          exact hv
        · refine ⟨v0, ?_, ?_⟩
          · have e1 : (VES :: rest).count VES - 1 = 0 := by
              simp [List.count_eq_zero.mpr hr]
            rw [e1]
            exact hd
          · rw [ratesLoop_find_ves_absent _ _ _ _ _ _ _ hr h, GoMap.find?_set_same]
    · have hr : VES ∈ rest := by
        rcases List.mem_cons.mp hm with h1 | h1
        · exact absurd h1.symm hc
        · exact h1
      rw [ratesLoop_cons_other _ _ _ _ _ _ _ hc] at h
      rw [List.count_cons_of_ne (Ne.symm hc)]
      exact ih _ _ _ hr h

/-- Neither the rate table nor the BTC/DASH rate reaches the entry of `VES`
or the world the loop leaves. -/
theorem ratesLoop_ves_independent (c : Codec) (b1 b2 : GoMap) (r1 r2 : F64)
    (sel : List GoStr) :
    ∀ (acc1 acc2 : GoMap) (w : World), acc1.find? VES = acc2.find? VES →
      Outcome.map (fun rates => GoMap.find? rates VES) (ratesLoop c b1 r1 sel acc1 w).out
        = Outcome.map (fun rates => GoMap.find? rates VES) (ratesLoop c b2 r2 sel acc2 w).out := by
  induction sel with
  | nil =>
    intro acc1 acc2 w h
    simp only [ratesLoop, Outcome.map, h]
  | cons cur rest ih =>
    intro acc1 acc2 w h
    by_cases hc : cur = VES
    · subst hc
      rw [ratesLoop_cons_ves, ratesLoop_cons_ves]
      cases hd : (DashCasaDASHVESRate c w).out with
      | err e => rfl
      | panic m => rfl
      | ok v =>
        simp only
        apply ih
        rw [GoMap.find?_set_same, GoMap.find?_set_same]
    · rw [ratesLoop_cons_other _ _ _ _ _ _ _ hc, ratesLoop_cons_other _ _ _ _ _ _ _ hc]
      apply ih
      rw [GoMap.find?_set_other _ _ _ _ (Ne.symm hc), GoMap.find?_set_other _ _ _ _ (Ne.symm hc)]
      exact h

/-- The loop ends well with numbers only when each of its calls of
`DashCasaDASHVESRate` returns a number and every product is a number. -/
theorem ratesLoop_allFinite (c : Codec) (btcRates : GoMap) (r : F64) (sel : List GoStr) :
    ∀ (acc : GoMap) (w : World), acc.allFinite = true →
      (∀ code ∈ sel, code ≠ VES → (F64.mul (btcRates.get code) r).isFinite = true) →
      (∀ k, k < sel.count VES →
        ∃ v, (DashCasaDASHVESRate c (afterVesCalls c k w)).out = .ok v ∧ v.isFinite = true) →
      ∃ rates, (ratesLoop c btcRates r sel acc w).out = .ok rates ∧ rates.allFinite = true := by
  induction sel with
  | nil => intro acc w hacc _ _; exact ⟨acc, rfl, hacc⟩
  | cons cur rest ih =>
    intro acc w hacc hprod hves
    by_cases hc : cur = VES
    · subst hc
      rw [ratesLoop_cons_ves]
      obtain ⟨v, hv, hfin⟩ := hves 0 (by simp)
      have hv0 : (DashCasaDASHVESRate c w).out = .ok v := hv
      rw [hv0]
      apply ih _ _ (GoMap.allFinite_set _ _ _ hacc hfin)
      · exact fun code hcode hne => hprod code (List.mem_cons_of_mem _ hcode) hne
      · intro k hk
        have := hves (k + 1) (by simp; omega)
        rwa [afterVesCalls_succ] at this
    · rw [ratesLoop_cons_other _ _ _ _ _ _ _ hc]
      apply ih _ _ (GoMap.allFinite_set _ _ _ hacc (hprod cur (List.mem_cons_self _ _) hc))
      · exact fun code hcode hne => hprod code (List.mem_cons_of_mem _ hcode) hne
      · intro k hk
        exact hves k (by rw [List.count_cons_of_ne (Ne.symm hc)]; exact hk)

/-- The loop reads the rate table at the requested codes other than `VES`
only. -/
theorem ratesLoop_congr (c : Codec) (b1 b2 : GoMap) (r : F64) (sel : List GoStr)
    (h : ∀ code, code ≠ VES → b1.get code = b2.get code) :
    ∀ (acc : GoMap) (w : World), ratesLoop c b1 r sel acc w = ratesLoop c b2 r sel acc w := by
  induction sel with
  | nil => intro acc w; rfl
  | cons cur rest ih =>
    intro acc w
    by_cases hc : cur = VES
    · subst hc
      rw [ratesLoop_cons_ves, ratesLoop_cons_ves]
      cases (DashCasaDASHVESRate c w).out with
      | err e => rfl
      | panic m => rfl
      | ok v => exact ih _ _
    · rw [ratesLoop_cons_other _ _ _ _ _ _ _ hc, ratesLoop_cons_other _ _ _ _ _ _ _ hc, h cur hc]
      exact ih _ _

theorem ratesLoop_wellTyped (c : Codec) (btcRates : GoMap) (r : F64) (sel : List GoStr) :
    ∀ (acc : GoMap) (w : World), w.cache.WellTyped = true →
      (ratesLoop c btcRates r sel acc w).world.cache.WellTyped = true := by
  induction sel with
  | nil => intro acc w h; exact h
  | cons cur rest ih =>
    intro acc w h
    by_cases hc : cur = VES
    · subst hc
      rw [ratesLoop_cons_ves]
      have hd := (providers_keep_cache_wellTyped c w h).2.2.2.2.2
      cases (DashCasaDASHVESRate c w).out with
      | err e => exact hd
      | panic m => exact hd
      | ok v => exact ih _ _ hd
    · rw [ratesLoop_cons_other _ _ _ _ _ _ _ hc]
      exact ih _ _ h

/-- The handler keeps the typing invariant of the cache. -/
theorem Wildcard_keeps_cache_wellTyped (c : Codec) (w : World) (path : GoStr)
    (hwt : w.cache.WellTyped = true) : (Wildcard c w path).world.cache.WellTyped = true := by
  have h1 := (providers_keep_cache_wellTyped c w hwt).2.2.2.2.1
  have h2 := (providers_keep_cache_wellTyped c (BitcoinaverageRates c w).world h1).2.1
  have h3 := (providers_keep_cache_wellTyped c
    (CryptocompareBTCDASHAverage c (BitcoinaverageRates c w).world).world h2).2.2.2.1
  have h4 : (btcDashRateInUse c (BitcoinaverageRates c w).world).world.cache.WellTyped = true := by
    unfold btcDashRateInUse
    simp only
    cases (CryptocompareBTCDASHAverage c (BitcoinaverageRates c w).world).out with
    | err e => exact h2
    | panic m => exact h2
    | ok v =>
      simp only
      split
      · exact h3
      · exact h2
  unfold Wildcard
  cases selectCurrencies (normalizePath path) with
  | err e => exact hwt
  | panic m => exact hwt
  | ok sel =>
    simp only
    cases (BitcoinaverageRates c w).out with
    | err e => exact h1
    | panic m => exact h1
    | ok btcRates =>
      simp only
      cases (btcDashRateInUse c (BitcoinaverageRates c w).world).out with
      | err e => exact h4
      | panic m => exact h4
      | ok r =>
        simp only
        rw [logAndRespond_world]
        exact ratesLoop_wellTyped c btcRates r sel _ _ h4

/-! ## Claims about the aggregator -/

/-- C4 as stated fails: with the rate table `USD: 1e308` and the
BTC/DASH rate `10` all providers succeed and `VES` is not requested, yet the
product overflows to `+Inf`, the logger panics on it at line 275 and the
request `/USD` gets no table at all. -/
theorem C4_counterexample_overflowing_product :
    (BitcoinaverageRates
        (mockCodec (F64.ofNat 10) F64.zero [(GoStr.ofString "BTCUSD", F64.ofNat (10 ^ 308))]
          F64.zero []) calmWorld).out
      = .ok [(GoStr.ofString "USD", F64.ofNat (10 ^ 308))] ∧
    (btcDashRateInUse
        (mockCodec (F64.ofNat 10) F64.zero [(GoStr.ofString "BTCUSD", F64.ofNat (10 ^ 308))]
          F64.zero [])
        (BitcoinaverageRates
          (mockCodec (F64.ofNat 10) F64.zero [(GoStr.ofString "BTCUSD", F64.ofNat (10 ^ 308))]
            F64.zero []) calmWorld).world).out = .ok (F64.ofNat 10) ∧
    selectCurrencies (normalizePath (GoStr.ofString "/USD")) = .ok [GoStr.ofString "USD"] ∧
    (F64.ofNat (10 ^ 308)).isFinite = true ∧
    F64.mul (F64.ofNat (10 ^ 308)) (F64.ofNat 10) = .inf false ∧
    (Wildcard
        (mockCodec (F64.ofNat 10) F64.zero [(GoStr.ofString "BTCUSD", F64.ofNat (10 ^ 308))]
          F64.zero []) calmWorld (GoStr.ofString "/USD")).out
      = .panic jsonUnsupportedValue := by
  refine ⟨by decide!, by decide!, by decide!, by decide!, by decide!, by decide!⟩

/-- C4, amended.  Whenever the selection is valid and all providers succeed
(the rate table, the BTC/DASH rate in use, and every call of the VES provider
the loop makes): every table the handler answers with maps every requested
code other than `VES` to `btcRates[code]` times the BTC/DASH rate in use; and
the handler does answer with such a table when those products and the VES
rates are numbers (neither NaN nor infinite).  With the table
`USD: 50000, EUR: 46000` and the rate `0.01`, the request `/USD/EUR` yields
`USD: 500, EUR: 460`. -/
theorem C4_requested_codes_are_priced_by_the_product (c : Codec) (w : World) (path : GoStr)
    (sel : List GoStr) (btcRates : GoMap) (r : F64)
    (hsel : selectCurrencies (normalizePath path) = .ok sel)
    (hrates : (BitcoinaverageRates c w).out = .ok btcRates)
    (hrate : (btcDashRateInUse c (BitcoinaverageRates c w).world).out = .ok r) :
    (∀ rates, (Wildcard c w path).out = .ok rates →
      ∀ code ∈ sel, code ≠ VES →
        rates.find? code = some (F64.mul (btcRates.get code) r)) ∧
    ((∀ k, k < sel.count VES →
        ∃ v, (DashCasaDASHVESRate c (afterVesCalls c k (loopWorld c w))).out = .ok v ∧
          v.isFinite = true) →
      (∀ code ∈ sel, code ≠ VES → (F64.mul (btcRates.get code) r).isFinite = true) →
      ∃ rates, (Wildcard c w path).out = .ok rates ∧
        ∀ code ∈ sel, code ≠ VES →
          rates.find? code = some (F64.mul (btcRates.get code) r)) ∧
    ((BitcoinaverageRates (mockCodec (F64.ofFrac 1 100) F64.zero mockTicker F64.zero [])
        calmWorld).out
      = .ok [(GoStr.ofString "USD", F64.ofNat 50000), (GoStr.ofString "EUR", F64.ofNat 46000)] ∧
     (btcDashRateInUse (mockCodec (F64.ofFrac 1 100) F64.zero mockTicker F64.zero [])
        (BitcoinaverageRates (mockCodec (F64.ofFrac 1 100) F64.zero mockTicker F64.zero [])
          calmWorld).world).out = .ok (F64.ofFrac 1 100) ∧
     (Wildcard (mockCodec (F64.ofFrac 1 100) F64.zero mockTicker F64.zero []) calmWorld
        (GoStr.ofString "/USD/EUR")).out
      = .ok [(GoStr.ofString "USD", F64.ofNat 500), (GoStr.ofString "EUR", F64.ofNat 460)]) := by
  have hpart : ∀ rates, (Wildcard c w path).out = .ok rates →
      ∀ code ∈ sel, code ≠ VES →
        rates.find? code = some (F64.mul (btcRates.get code) r) := by
    intro rates hok code hc hne
    rw [Wildcard_eq_logAndRespond c w path sel btcRates r hsel hrates hrate] at hok
    have hl := ((logAndRespond_ok_iff _ _).mp hok).1
    rw [ratesLoop_find_other c btcRates r sel _ _ _ hl code hne, if_pos hc]
  refine ⟨hpart, fun hves hfin => ?_, by decide!, by decide!, by decide!⟩
  obtain ⟨rates, hr, hall⟩ :=
    ratesLoop_allFinite c btcRates r sel [] (loopWorld c w) rfl hfin hves
  have hok : (Wildcard c w path).out = .ok rates := by
    rw [Wildcard_eq_logAndRespond c w path sel btcRates r hsel hrates hrate]
    exact (logAndRespond_ok_iff _ _).mpr ⟨hr, hall⟩
  exact ⟨rates, hok, hpart rates hok⟩

/-- C4 (amended) at the request `/USD/VES/EUR` in the calm world, with the
table `USD: 50000, EUR: 46000`, the rate `0.01` and the VES rate `7`. -/
theorem C4_requested_codes_are_priced_by_the_product_witness :
    ∃ rates,
      (Wildcard (mockCodec (F64.ofFrac 1 100) F64.zero mockTicker (F64.ofNat 7) []) calmWorld
        (GoStr.ofString "/USD/VES/EUR")).out = .ok rates ∧
      ∀ code ∈ [GoStr.ofString "USD", GoStr.ofString "VES", GoStr.ofString "EUR"], code ≠ VES →
        rates.find? code
          = some (F64.mul
              (GoMap.get [(GoStr.ofString "USD", F64.ofNat 50000),
                (GoStr.ofString "EUR", F64.ofNat 46000)] code)
              (F64.ofFrac 1 100)) :=
  (C4_requested_codes_are_priced_by_the_product
    (mockCodec (F64.ofFrac 1 100) F64.zero mockTicker (F64.ofNat 7) []) calmWorld
    (GoStr.ofString "/USD/VES/EUR")
    [GoStr.ofString "USD", GoStr.ofString "VES", GoStr.ofString "EUR"]
    [(GoStr.ofString "USD", F64.ofNat 50000), (GoStr.ofString "EUR", F64.ofNat 46000)]
    (F64.ofFrac 1 100) (by decide!) (by decide!) (by decide!)).2.1
    (fun k hk => by
      have h1 : List.count VES
          [GoStr.ofString "USD", GoStr.ofString "VES", GoStr.ofString "EUR"] = 1 := by decide!
      rw [h1] at hk
      have h0 : k = 0 := by omega
      subst h0
      exact ⟨F64.ofNat 7, by decide!, by decide!⟩)
    (by decide!)

/-- C5 as stated fails: in the world where the call of the primary
provider meets two transport errors, the primary returns an error, the
secondary would answer `0.02` without error, and yet the request fails with
the error of the primary; the secondary is never asked. -/
theorem C5_counterexample_primary_error_is_final :
    (CryptocompareBTCDASHAverage (mockCodec F64.zero (F64.ofFrac 2 100) mockTicker F64.zero [])
        (BitcoinaverageRates (mockCodec F64.zero (F64.ofFrac 2 100) mockTicker F64.zero [])
          (troubledWorld 1 2)).world).out
      = .err (.http 500 "Failed to fetch BTCDASH rate from CryptoCompare") ∧
    (BitcoinaverageCurrentBTCDASHRate
        (mockCodec F64.zero (F64.ofFrac 2 100) mockTicker F64.zero [])
        (CryptocompareBTCDASHAverage
          (mockCodec F64.zero (F64.ofFrac 2 100) mockTicker F64.zero [])
          (BitcoinaverageRates (mockCodec F64.zero (F64.ofFrac 2 100) mockTicker F64.zero [])
            (troubledWorld 1 2)).world).world).out
      = .ok (F64.ofFrac 2 100) ∧
    (Wildcard (mockCodec F64.zero (F64.ofFrac 2 100) mockTicker F64.zero []) (troubledWorld 1 2)
        (GoStr.ofString "/USD")).out
      = .err (.http 500 "Failed to fetch BTCDASH rate from CryptoCompare") ∧
    (Wildcard (mockCodec F64.zero (F64.ofFrac 2 100) mockTicker F64.zero []) (troubledWorld 1 2)
        (GoStr.ofString "/USD")).world.requests
      = [bitcoinaverageRatesURL, cryptocompareURL] := by
  refine ⟨by decide!, by decide!, by decide!, by decide!⟩

/-- C5, amended.  The fallback is taken on a zero rate only.  When the primary
provider returns `0` without error, the rate is taken from the secondary
provider: the request fails with the secondary's error when the secondary
fails, and otherwise goes on to the loop and what follows it with the
secondary's rate.  When the primary provider returns an error, the request
fails with that error and the secondary is not asked.  With the primary at
`0`, the secondary at `0.02` and `btcRates[USD] = 50000`, the request `/USD`
yields `USD: 1000`. -/
theorem C5_fallback_on_zero_not_on_error (c : Codec) (w : World) (path : GoStr)
    (sel : List GoStr) (btcRates : GoMap)
    (hsel : selectCurrencies (normalizePath path) = .ok sel)
    (hrates : (BitcoinaverageRates c w).out = .ok btcRates) :
    (∀ r0, (CryptocompareBTCDASHAverage c (BitcoinaverageRates c w).world).out = .ok r0 →
      r0.isZero = true →
      (∀ e, (BitcoinaverageCurrentBTCDASHRate c
              (CryptocompareBTCDASHAverage c (BitcoinaverageRates c w).world).world).out = .err e →
            (Wildcard c w path).out = .err e) ∧
      (∀ r, (BitcoinaverageCurrentBTCDASHRate c
              (CryptocompareBTCDASHAverage c (BitcoinaverageRates c w).world).world).out = .ok r →
            Wildcard c w path = logAndRespond (ratesLoop c btcRates r sel []
              (BitcoinaverageCurrentBTCDASHRate c
                (CryptocompareBTCDASHAverage c (BitcoinaverageRates c w).world).world).world))) ∧
    (∀ e, (CryptocompareBTCDASHAverage c (BitcoinaverageRates c w).world).out = .err e →
      (Wildcard c w path).out = .err e ∧
      (Wildcard c w path).world
        = (CryptocompareBTCDASHAverage c (BitcoinaverageRates c w).world).world) ∧
    ((CryptocompareBTCDASHAverage (mockCodec F64.zero (F64.ofFrac 2 100) mockTicker F64.zero [])
        (BitcoinaverageRates (mockCodec F64.zero (F64.ofFrac 2 100) mockTicker F64.zero [])
          calmWorld).world).out = .ok F64.zero ∧
     (Wildcard (mockCodec F64.zero (F64.ofFrac 2 100) mockTicker F64.zero []) calmWorld
        (GoStr.ofString "/USD")).out = .ok [(GoStr.ofString "USD", F64.ofNat 1000)]) := by
  refine ⟨fun r0 h0 hz => ⟨fun e he => ?_, fun r hr => ?_⟩, fun e he => ?_, by decide!, by decide!⟩
  · unfold Wildcard btcDashRateInUse
    simp only [hsel, hrates, h0, hz, if_true, he]
  · have hrate : (btcDashRateInUse c (BitcoinaverageRates c w).world).out = .ok r := by
      unfold btcDashRateInUse
      simp only [h0, hz, if_true, hr]
    rw [Wildcard_eq_logAndRespond c w path sel btcRates r hsel hrates hrate]
    unfold loopWorld btcDashRateInUse
    simp only [h0, hz, if_true]
  · unfold Wildcard btcDashRateInUse
    simp only [hsel, hrates, he, and_self]

/-- C5 (amended) at the request `/USD`: in the calm world the primary answers
`0` and the secondary `0.02`; in the world where the primary's call meets two
transport errors the request fails with the primary's error. -/
theorem C5_fallback_on_zero_not_on_error_witness :
    (Wildcard (mockCodec F64.zero (F64.ofFrac 2 100) mockTicker F64.zero []) calmWorld
        (GoStr.ofString "/USD")
      = logAndRespond
          (ratesLoop (mockCodec F64.zero (F64.ofFrac 2 100) mockTicker F64.zero [])
            [(GoStr.ofString "USD", F64.ofNat 50000), (GoStr.ofString "EUR", F64.ofNat 46000)]
            (F64.ofFrac 2 100) [GoStr.ofString "USD"] []
            (BitcoinaverageCurrentBTCDASHRate
              (mockCodec F64.zero (F64.ofFrac 2 100) mockTicker F64.zero [])
              (CryptocompareBTCDASHAverage
                (mockCodec F64.zero (F64.ofFrac 2 100) mockTicker F64.zero [])
                (BitcoinaverageRates
                  (mockCodec F64.zero (F64.ofFrac 2 100) mockTicker F64.zero [])
                  calmWorld).world).world).world)) ∧
    ((Wildcard (mockCodec F64.zero (F64.ofFrac 2 100) mockTicker F64.zero []) (troubledWorld 1 2)
        (GoStr.ofString "/USD")).out
        = .err (.http 500 "Failed to fetch BTCDASH rate from CryptoCompare") ∧
      (Wildcard (mockCodec F64.zero (F64.ofFrac 2 100) mockTicker F64.zero []) (troubledWorld 1 2)
        (GoStr.ofString "/USD")).world
        = (CryptocompareBTCDASHAverage
            (mockCodec F64.zero (F64.ofFrac 2 100) mockTicker F64.zero [])
            (BitcoinaverageRates (mockCodec F64.zero (F64.ofFrac 2 100) mockTicker F64.zero [])
              (troubledWorld 1 2)).world).world) :=
  ⟨((C5_fallback_on_zero_not_on_error
      (mockCodec F64.zero (F64.ofFrac 2 100) mockTicker F64.zero []) calmWorld
      (GoStr.ofString "/USD") [GoStr.ofString "USD"]
      [(GoStr.ofString "USD", F64.ofNat 50000), (GoStr.ofString "EUR", F64.ofNat 46000)]
      (by decide!) (by decide!)).1 F64.zero (by decide!) (by decide!)).2
        (F64.ofFrac 2 100) (by decide!),
   (C5_fallback_on_zero_not_on_error
      (mockCodec F64.zero (F64.ofFrac 2 100) mockTicker F64.zero []) (troubledWorld 1 2)
      (GoStr.ofString "/USD") [GoStr.ofString "USD"]
      [(GoStr.ofString "USD", F64.ofNat 50000), (GoStr.ofString "EUR", F64.ofNat 46000)]
      (by decide!) (by decide!)).2.1 _ (by decide!)⟩

/-- C9.  For every valid selection that contains `VES`, once the rate table
and the BTC/DASH rate are obtained: in every table the handler answers with,
the value of `VES` is the value returned by the last call of
`DashCasaDASHVESRate` the loop makes; the handler runs the same with any rate
table that differs at `VES` only, and under any other rate table and BTC/DASH
rate every table it answers with holds the same value for `VES`; the request
fails with the error of the first call of `DashCasaDASHVESRate` that fails;
and the handler does answer, with the value of that last call under `VES`,
when all those calls return numbers and all products are numbers (neither NaN
nor infinite). -/
theorem C9_VES_comes_from_its_own_provider (c : Codec) (w : World) (path : GoStr)
    (sel : List GoStr) (btcRates : GoMap) (r : F64)
    (hsel : selectCurrencies (normalizePath path) = .ok sel)
    (hmem : VES ∈ sel)
    (hrates : (BitcoinaverageRates c w).out = .ok btcRates)
    (hrate : (btcDashRateInUse c (BitcoinaverageRates c w).world).out = .ok r) :
    (∀ rates, (Wildcard c w path).out = .ok rates →
      ∃ v, (DashCasaDASHVESRate c
              (afterVesCalls c (sel.count VES - 1) (loopWorld c w))).out = .ok v ∧
        rates.find? VES = some v) ∧
    (∀ btcRates2 : GoMap, (∀ code, code ≠ VES → btcRates2.get code = btcRates.get code) →
      logAndRespond (ratesLoop c btcRates2 r sel [] (loopWorld c w)) = Wildcard c w path) ∧
    (∀ (btcRates2 : GoMap) (r2 : F64) (rates rates2 : GoMap),
      (Wildcard c w path).out = .ok rates →
      (logAndRespond (ratesLoop c btcRates2 r2 sel [] (loopWorld c w))).out = .ok rates2 →
      rates2.find? VES = rates.find? VES) ∧
    (∀ k e, k < sel.count VES →
      (∀ j, j < k →
        ∃ v, (DashCasaDASHVESRate c (afterVesCalls c j (loopWorld c w))).out = .ok v) →
      (DashCasaDASHVESRate c (afterVesCalls c k (loopWorld c w))).out = .err e →
      (Wildcard c w path).out = .err e) ∧
    ((∀ k, k < sel.count VES →
        ∃ v, (DashCasaDASHVESRate c (afterVesCalls c k (loopWorld c w))).out = .ok v ∧
          v.isFinite = true) →
      (∀ code ∈ sel, code ≠ VES → (F64.mul (btcRates.get code) r).isFinite = true) →
      ∃ rates v, (Wildcard c w path).out = .ok rates ∧ rates.find? VES = some v ∧
        (DashCasaDASHVESRate c
          (afterVesCalls c (sel.count VES - 1) (loopWorld c w))).out = .ok v) := by
  rw [Wildcard_eq_logAndRespond c w path sel btcRates r hsel hrates hrate]
  have h1 : ∀ rates,
      (logAndRespond (ratesLoop c btcRates r sel [] (loopWorld c w))).out = .ok rates →
      ∃ v, (DashCasaDASHVESRate c
              (afterVesCalls c (sel.count VES - 1) (loopWorld c w))).out = .ok v ∧
        rates.find? VES = some v := fun rates h =>
    ratesLoop_find_ves c btcRates r sel _ _ _ hmem ((logAndRespond_ok_iff _ _).mp h).1
  refine ⟨h1, fun b2 hb => ?_, fun b2 r2 rates rates2 h h2 => ?_, fun k e hk hj he => ?_,
    fun hall hfin => ?_⟩
  · rw [ratesLoop_congr c b2 btcRates r sel hb]
  · have hi := ratesLoop_ves_independent c b2 btcRates r2 r sel [] [] (loopWorld c w) rfl
    rw [((logAndRespond_ok_iff _ _).mp h).1, ((logAndRespond_ok_iff _ _).mp h2).1] at hi
    simpa [Outcome.map] using hi
  · exact logAndRespond_err _ e (ratesLoop_err c btcRates r sel _ _ k e hk hj he)
  · obtain ⟨rates, hr, hfinite⟩ :=
      ratesLoop_allFinite c btcRates r sel [] (loopWorld c w) rfl hfin hall
    have hok := (logAndRespond_ok_iff _ rates).mpr ⟨hr, hfinite⟩
    obtain ⟨v, hv, hf⟩ := h1 rates hok
    exact ⟨rates, v, hok, hf, hv⟩

/-- C9 at the request `/USD/VES`: in the calm world, where the VES provider
answers `7`, and in the world where its call meets two transport errors. -/
theorem C9_VES_comes_from_its_own_provider_witness :
    (∃ rates v,
      (Wildcard (mockCodec (F64.ofFrac 1 100) F64.zero mockTicker (F64.ofNat 7) []) calmWorld
        (GoStr.ofString "/USD/VES")).out = .ok rates ∧
      rates.find? VES = some v ∧
      (DashCasaDASHVESRate (mockCodec (F64.ofFrac 1 100) F64.zero mockTicker (F64.ofNat 7) [])
        (afterVesCalls (mockCodec (F64.ofFrac 1 100) F64.zero mockTicker (F64.ofNat 7) [])
          ([GoStr.ofString "USD", GoStr.ofString "VES"].count VES - 1)
          (loopWorld (mockCodec (F64.ofFrac 1 100) F64.zero mockTicker (F64.ofNat 7) [])
            calmWorld))).out = .ok v) ∧
    (Wildcard (mockCodec (F64.ofFrac 1 100) F64.zero mockTicker (F64.ofNat 7) [])
        (troubledWorld 2 2) (GoStr.ofString "/USD/VES")).out
      = .err (.http 500 "Failed to fetch DASHVES rate from Dash Casa") :=
  ⟨(C9_VES_comes_from_its_own_provider
      (mockCodec (F64.ofFrac 1 100) F64.zero mockTicker (F64.ofNat 7) []) calmWorld
      (GoStr.ofString "/USD/VES") [GoStr.ofString "USD", GoStr.ofString "VES"]
      [(GoStr.ofString "USD", F64.ofNat 50000), (GoStr.ofString "EUR", F64.ofNat 46000)]
      (F64.ofFrac 1 100) (by decide!) (by decide!) (by decide!) (by decide!)).2.2.2.2
      (fun k hk => by
        have h1 : List.count VES [GoStr.ofString "USD", GoStr.ofString "VES"] = 1 := by decide!
        rw [h1] at hk
        have h0 : k = 0 := by omega
        subst h0
        exact ⟨F64.ofNat 7, by decide!, by decide!⟩)
      (by decide!),
   (C9_VES_comes_from_its_own_provider
      (mockCodec (F64.ofFrac 1 100) F64.zero mockTicker (F64.ofNat 7) []) (troubledWorld 2 2)
      (GoStr.ofString "/USD/VES") [GoStr.ofString "USD", GoStr.ofString "VES"]
      [(GoStr.ofString "USD", F64.ofNat 50000), (GoStr.ofString "EUR", F64.ofNat 46000)]
      (F64.ofFrac 1 100) (by decide!) (by decide!) (by decide!) (by decide!)).2.2.2.1
      0 _ (by decide!) (fun j hj => absurd hj (Nat.not_lt_zero j)) (by decide!)⟩

/-- C10 as stated fails: the rate table has no entry for `EUR`, the
request `/EUR` succeeds, and the response holds `EUR` with the value `0`. -/
theorem C10_counterexample_missing_quote :
    (BitcoinaverageRates
        (mockCodec (F64.ofFrac 1 100) F64.zero [(GoStr.ofString "BTCUSD", F64.ofNat 50000)]
          F64.zero []) calmWorld).out
      = .ok [(GoStr.ofString "USD", F64.ofNat 50000)] ∧
    GoMap.find? [(GoStr.ofString "USD", F64.ofNat 50000)] (GoStr.ofString "EUR") = none ∧
    GoStr.ofString "EUR" ≠ VES ∧
    (Wildcard
        (mockCodec (F64.ofFrac 1 100) F64.zero [(GoStr.ofString "BTCUSD", F64.ofNat 50000)]
          F64.zero []) calmWorld (GoStr.ofString "/EUR")).out
      = .ok [(GoStr.ofString "EUR", F64.zero)] ∧
    F64.zero.isZero = true := by
  refine ⟨by decide!, by decide!, by decide!, by decide!, by decide!⟩

/-- C10, amended.  A requested code other than `VES` that has no entry in the
rate table can appear in a successful response with the value `0`:
`btcRates[code]` is the zero value, the loop stores `0` times the BTC/DASH
rate in use under the code, and every table the handler answers with holds
the code with that product, which is a zero.  The missing entry does not fail
the request: the handler answers whenever the providers succeed and the values
of the table are numbers (neither NaN nor infinite). -/
theorem C10_missing_quote_is_priced_from_zero (c : Codec) (w : World) (path : GoStr)
    (sel : List GoStr) (btcRates : GoMap) (r : F64) (code : GoStr)
    (hsel : selectCurrencies (normalizePath path) = .ok sel)
    (hrates : (BitcoinaverageRates c w).out = .ok btcRates)
    (hrate : (btcDashRateInUse c (BitcoinaverageRates c w).world).out = .ok r)
    (hcode : code ∈ sel) (hne : code ≠ VES) (hmiss : btcRates.find? code = none) :
    (∀ rates, (Wildcard c w path).out = .ok rates →
      rates.find? code = some (F64.mul F64.zero r) ∧ (F64.mul F64.zero r).isZero = true) ∧
    ((∀ k, k < sel.count VES →
        ∃ v, (DashCasaDASHVESRate c (afterVesCalls c k (loopWorld c w))).out = .ok v ∧
          v.isFinite = true) →
      (∀ code2 ∈ sel, code2 ≠ VES → (F64.mul (btcRates.get code2) r).isFinite = true) →
      ∃ rates, (Wildcard c w path).out = .ok rates ∧
        rates.find? code = some (F64.mul F64.zero r)) := by
  rw [Wildcard_eq_logAndRespond c w path sel btcRates r hsel hrates hrate]
  have hpart : ∀ rates,
      (logAndRespond (ratesLoop c btcRates r sel [] (loopWorld c w))).out = .ok rates →
      rates.find? code = some (F64.mul F64.zero r) ∧ (F64.mul F64.zero r).isZero = true := by
    intro rates hok
    obtain ⟨hl, hall⟩ := (logAndRespond_ok_iff _ _).mp hok
    have hf : rates.find? code = some (F64.mul F64.zero r) := by
      rw [ratesLoop_find_other c btcRates r sel _ _ _ hl code hne, if_pos hcode]
      unfold GoMap.get
      rw [hmiss]
      rfl
    refine ⟨hf, ?_⟩
    have hfin := GoMap.allFinite_find rates code _ hall hf
    cases r with
    | nan => simp [F64.mul, F64.zero, F64.isFinite] at hfin
    | inf s => simp [F64.mul, F64.zero, F64.isFinite] at hfin
    | fin s m e => simp [F64.mul, F64.zero, F64.round, F64.isZero]
  refine ⟨hpart, fun hves hfin => ?_⟩
  obtain ⟨rates, hr, hall⟩ :=
    ratesLoop_allFinite c btcRates r sel [] (loopWorld c w) rfl hfin hves
  have hok := (logAndRespond_ok_iff _ rates).mpr ⟨hr, hall⟩
  exact ⟨rates, hok, (hpart rates hok).1⟩

/-- C10 (amended) at the request `/EUR` with a rate table that holds `USD`
only. -/
theorem C10_missing_quote_is_priced_from_zero_witness :
    ∃ rates,
      (Wildcard
        (mockCodec (F64.ofFrac 1 100) F64.zero [(GoStr.ofString "BTCUSD", F64.ofNat 50000)]
          F64.zero []) calmWorld (GoStr.ofString "/EUR")).out = .ok rates ∧
      rates.find? (GoStr.ofString "EUR") = some (F64.mul F64.zero (F64.ofFrac 1 100)) :=
  (C10_missing_quote_is_priced_from_zero
    (mockCodec (F64.ofFrac 1 100) F64.zero [(GoStr.ofString "BTCUSD", F64.ofNat 50000)]
      F64.zero []) calmWorld (GoStr.ofString "/EUR") [GoStr.ofString "EUR"]
    [(GoStr.ofString "USD", F64.ofNat 50000)] (F64.ofFrac 1 100) (GoStr.ofString "EUR")
    (by decide!) (by decide!) (by decide!) (by decide!) (by decide!) (by decide!)).2
    (fun k hk => by
      have h1 : List.count VES [GoStr.ofString "EUR"] = 0 := by decide!
      rw [h1] at hk
      exact absurd hk (Nat.not_lt_zero k))
    (by decide!)

end DashRates
